import Mathlib

/-!
Verification of the caDNAno topology engine (`caDNAnoFileHandler` and
`DnaGeometry` in `__init__.py`): a shallow embedding of the data model of the file handler and of the functions `read_caDNAno_file`, `object_concat`,
`getStaplePaths`, `scaffold_stitch`, `get_staples`, `populateSequence`,
`getScaffoldLengths`, `getScaffoldPaths` and `DnaGeometry.giveHoneycombCoord`,
together with theorems settling the specified properties of each.

Python lists of four ints (`[a, b, c, d]`, the token-pointer records) become
the structure `Base`; the Python `-1` sentinels stay literal `-1 : Int`.
Loops that the source runs without a bound are modelled with an explicit
fuel parameter; `WalkOut.outOfFuel` for every fuel value means the source
loop never exits.  Python `dict` state becomes association lists with
last-update-wins semantics, and Python list indexing (negative indices wrap,
out-of-range raises) becomes `pyGet?` / `pySet?` returning `none` on what
the source would raise.
-/

namespace CaDNAno

/-- A token-pointer record `[prevStrandNum, prevBase, nextStrandNum, nextBase]`
from the `scaf` / `stap` arrays.  `⟨-1,-1,-1,-1⟩` is the empty-base sentinel. -/
structure Base where
  ps : Int
  pb : Int
  ns : Int
  nb : Int
deriving DecidableEq, Repr

/-- The all-`-1` empty-base sentinel `[-1, -1, -1, -1]`. -/
def emptyBase : Base := ⟨-1, -1, -1, -1⟩

/-- One entry of the `vstrands` array of a parsed caDNAno file. -/
structure VStrand where
  num : Int
  row : Int
  col : Int
  scaf : List Base
  stap : List Base
  skip : List Int
  loop : List Int
  stap_colors : List (Int × Int)
deriving DecidableEq, Repr

/-- The parsed document: the ordered `vstrands` collection. -/
abbrev Document := List VStrand

/-- Python list read `l[i]`: negative indices count from the end, anything
out of range (`IndexError`) is `none`. -/
def pyGet? (l : List α) (i : Int) : Option α :=
  if 0 ≤ i then l.get? i.toNat
  else if (-i).toNat ≤ l.length then l.get? (l.length - (-i).toNat) else none

/-- Python list write `l[i] = a`, with the same index semantics as `pyGet?`. -/
def pySet? (l : List α) (i : Int) (a : α) : Option (List α) :=
  if 0 ≤ i then
    if i.toNat < l.length then some (l.set i.toNat a) else none
  else if (-i).toNat ≤ l.length then some (l.set (l.length - (-i).toNat) a) else none

/-- Helper for `strandi`: the dictionary built by
`for strand in strands: self.strandi.update({strand["num"]: i})` keeps, for a
repeated `num`, the last index written. -/
def strandiAux : List VStrand → Nat → Int → Option Nat
  | [], _, _ => none
  | s :: rest, i, n =>
    match strandiAux rest (i + 1) n with
    | some j => some j
    | none => if s.num = n then some i else none

/-- The dictionary lookup `self.strandi[n]`: storage index of the virtual strand numbered `n`
(`none` models the `KeyError` on an unknown strand number). -/
def strandi (doc : Document) (n : Int) : Option Nat :=
  strandiAux doc 0 n

theorem strandiAux_spec (l : List VStrand) (k : Nat) (n : Int) (i : Nat)
    (h : strandiAux l k n = some i) :
    ∃ j s, i = k + j ∧ l.get? j = some s ∧ s.num = n := by
  induction l generalizing k with
  | nil => simp [strandiAux] at h
  | cons a l ih =>
    rw [strandiAux] at h
    rcases hrec : strandiAux l (k + 1) n with _ | j <;> rw [hrec] at h
    · by_cases ha : a.num = n
      · rw [if_pos ha] at h
        have hk := Option.some.inj h
        exact ⟨0, a, by omega, by simp, ha⟩
      · simp [ha] at h
    · have hj := Option.some.inj h
      subst hj
      obtain ⟨j', s, hj, hg, hn⟩ := ih (k + 1) hrec
      refine ⟨j' + 1, s, by omega, by simpa using hg, hn⟩

/-- Lookup soundness: `strandi` returns an index whose strand really carries the looked-up
number. -/
theorem strandi_spec (doc : Document) (n : Int) (i : Nat)
    (h : strandi doc n = some i) :
    ∃ s, doc.get? i = some s ∧ s.num = n := by
  obtain ⟨j, s, hj, hg, hn⟩ := strandiAux_spec doc 0 n i h
  exact ⟨s, by simpa [hj] using hg, hn⟩

/-- The outcome of running one of the unbounded source loops with a fuel
bound: `done` when the loop exits, `fail` when the Python would raise
(`KeyError` / `IndexError`), `outOfFuel` when the bound ran out before the
loop exited.  `outOfFuel` for every fuel value means the source hangs. -/
inductive WalkOut (α : Type) where
  | done (a : α)
  | fail
  | outOfFuel
deriving DecidableEq, Repr

namespace WalkOut

def map (f : α → β) : WalkOut α → WalkOut β
  | .done a => .done (f a)
  | .fail => .fail
  | .outOfFuel => .outOfFuel

@[simp] theorem map_done (f : α → β) (a : α) : (done a).map f = done (f a) := rfl
@[simp] theorem map_fail (f : α → β) : (fail : WalkOut α).map f = fail := rfl
@[simp] theorem map_outOfFuel (f : α → β) : (outOfFuel : WalkOut α).map f = outOfFuel := rfl

theorem map_eq_done (f : α → β) (w : WalkOut α) (b : β)
    (h : w.map f = done b) : ∃ a, w = done a ∧ b = f a := by
  cases w with
  | done a => exact ⟨a, rfl, by simpa [map] using h.symm⟩
  | fail => simp [map] at h
  | outOfFuel => simp [map] at h

end WalkOut

/-- One emitted `[row, col, base, goingRight]` display tuple. -/
structure PathRec where
  row : Int
  col : Int
  baseIdx : Int
  goingRight : Bool
deriving DecidableEq, Repr

/-! ## getScaffoldPaths -/

/-- The record `[int(row), int(col), baseIndex, GoingRight]` appended by
`getScaffoldPaths`, with `GoingRight = (num % 2 == 0)`. -/
def scafRecordOf (doc : Document) (si : Nat) (bi : Int) : Option PathRec :=
  (doc.get? si).map fun s => ⟨s.row, s.col, bi, s.num % 2 == 0⟩

/-- The five-prime-end scan of `getScaffoldPaths`: every base of the `scaf` array of every strand with `base[0] == -1 and base[1] == -1 and base[2] != -1 and
base[3] != -1`, as `(strandIndex, baseIndex, base)`. -/
def scafStartBases (doc : Document) : List (Nat × Nat × Base) :=
  doc.enum.flatMap fun p =>
    p.2.scaf.enum.filterMap fun q =>
      if q.2.ps = -1 ∧ q.2.pb = -1 ∧ q.2.ns ≠ -1 ∧ q.2.nb ≠ -1 then
        some (p.1, q.1, q.2)
      else none

/-- The `while curr_base[2] != -1 and curr_base[3] != -1` loop of
`getScaffoldPaths`, emitting one record per step taken.  `si`/`bi` are the
current storage index and base index, `b` the current base record. -/
def scafLoop (doc : Document) : Nat → Nat → Int → Base → WalkOut (List PathRec)
  | 0, _, _, b =>
    if b.ns ≠ -1 ∧ b.nb ≠ -1 then .outOfFuel else .done []
  | fuel + 1, _, _, b =>
    if b.ns ≠ -1 ∧ b.nb ≠ -1 then
      match strandi doc b.ns with
      | none => .fail
      | some ni =>
        match doc.get? ni with
        | none => .fail
        | some nstrand =>
          match pyGet? nstrand.scaf b.nb with
          | none => .fail
          | some b' =>
            match scafRecordOf doc ni b.nb with
            | none => .fail
            | some r => (scafLoop doc fuel ni b.nb b').map (r :: ·)
    else .done []

/-- One scaffold path: the start record followed by the records of the loop. -/
def scafPathFrom (doc : Document) (fuel : Nat) (si bi : Nat) (b : Base) :
    WalkOut (List PathRec) :=
  match scafRecordOf doc si (bi : Int) with
  | none => .fail
  | some r => (scafLoop doc fuel si (bi : Int) b).map (r :: ·)

/-- The outer `for start_base in start_bases` loop: paths in start order,
aborting at the first start whose walk raises or hangs. -/
def collectScafPaths (doc : Document) (fuel : Nat) :
    List (Nat × Nat × Base) → WalkOut (List (List PathRec))
  | [] => .done []
  | sb :: rest =>
    match scafPathFrom doc fuel sb.1 sb.2.1 sb.2.2 with
    | .done p => (collectScafPaths doc fuel rest).map (p :: ·)
    | .fail => .fail
    | .outOfFuel => .outOfFuel

/-- The method `caDNAnoFileHandler.getScaffoldPaths`, with a fuel bound on each walk. -/
def getScaffoldPaths (doc : Document) (fuel : Nat) : WalkOut (List (List PathRec)) :=
  collectScafPaths doc fuel (scafStartBases doc)

/-! ## A routing cycle: the failing input of C1 -/

/-- A single virtual strand whose scaffold has a five-prime start at base 0 whose
walk enters the cycle `0 → 1 → 2 → 0` (base 2 points back at the original
start), so the walk revisits its original `(strandIndex, baseIndex)`. -/
def cyclicStrand : VStrand :=
  { num := 0, row := 0, col := 0,
    scaf := [⟨-1, -1, 0, 1⟩, ⟨0, 0, 0, 2⟩, ⟨0, 1, 0, 0⟩],
    stap := [emptyBase, emptyBase, emptyBase],
    skip := [0, 0, 0], loop := [0, 0, 0], stap_colors := [] }

def cyclicDoc : Document := [cyclicStrand]

theorem cyclicDoc_starts :
    scafStartBases cyclicDoc = [(0, 0, ⟨-1, -1, 0, 1⟩)] := by decide

theorem scafLoop_cyclic (fuel : Nat) :
    scafLoop cyclicDoc fuel 0 0 ⟨-1, -1, 0, 1⟩ = .outOfFuel ∧
    scafLoop cyclicDoc fuel 0 1 ⟨0, 0, 0, 2⟩ = .outOfFuel ∧
    scafLoop cyclicDoc fuel 0 2 ⟨0, 1, 0, 0⟩ = .outOfFuel := by
  induction fuel with
  | zero => refine ⟨?_, ?_, ?_⟩ <;> decide
  | succ n ih =>
    obtain ⟨h0, h1, h2⟩ := ih
    refine ⟨?_, ?_, ?_⟩
    · show (if _ then _ else _) = _
      rw [if_pos (by decide)]
      show (scafLoop cyclicDoc n 0 1 ⟨0, 0, 0, 2⟩).map _ = _
      rw [h1]; rfl
    · show (if _ then _ else _) = _
      rw [if_pos (by decide)]
      show (scafLoop cyclicDoc n 0 2 ⟨0, 1, 0, 0⟩).map _ = _
      rw [h2]; rfl
    · show (if _ then _ else _) = _
      rw [if_pos (by decide)]
      show (scafLoop cyclicDoc n 0 0 ⟨-1, -1, 0, 1⟩).map _ = _
      rw [h0]; rfl

/-- C1: the claim says `getScaffoldPaths` terminates on every document,
stopping with a `CyclicPathError` when the walk from a five-prime start revisits its
original `(strandIndex, baseIndex)`.  The source
`while curr_base[2] != -1 and curr_base[3] != -1` loop has no revisit check
at all: on `cyclicDoc` — whose single walk revisits its original start after
three steps — the loop never exits, whatever bound it is given. -/
theorem getScaffoldPaths_diverges_on_cycle (fuel : Nat) :
    getScaffoldPaths cyclicDoc fuel = .outOfFuel := by
  show collectScafPaths cyclicDoc fuel (scafStartBases cyclicDoc) = _
  rw [cyclicDoc_starts]
  show (match scafPathFrom cyclicDoc fuel 0 0 ⟨-1, -1, 0, 1⟩ with
    | .done p => (collectScafPaths cyclicDoc fuel []).map (p :: ·)
    | .fail => .fail
    | .outOfFuel => .outOfFuel) = _
  have hloop := (scafLoop_cyclic fuel).1
  show (match
      (match scafRecordOf cyclicDoc 0 ((0 : Nat) : Int) with
      | none => WalkOut.fail
      | some r => (scafLoop cyclicDoc fuel 0 ((0 : Nat) : Int) ⟨-1, -1, 0, 1⟩).map (r :: ·)) with
    | .done p => (collectScafPaths cyclicDoc fuel []).map (p :: ·)
    | .fail => .fail
    | .outOfFuel => .outOfFuel) = _
  rw [show scafRecordOf cyclicDoc 0 ((0 : Nat) : Int) =
      some ⟨0, 0, 0, true⟩ from by decide]
  simp only [Nat.cast_zero]
  rw [hloop]
  rfl

/-! ## getStaplePaths and get_staples -/

/-- The color dictionary built by `read_caDNAno_file`:
`{(strandIndex, colorEntry[0]): colorEntry[1]}`, later entries overriding. -/
def colorsLookup (doc : Document) (si : Nat) (bi : Int) : Option Int :=
  (doc.enum.flatMap fun p => p.2.stap_colors.map fun ce => ((p.1, ce.1), ce.2)).foldl
    (fun acc kv => if kv.1 = (si, bi) then some kv.2 else acc) none

/-- The five-prime-end scan of `getStaplePaths`: every staple base with
`base[0] == -1 and base[1] == -1 and base[2] > -1 and base[3] > -1`, kept as
`(base, baseIndex, strandIndex, strandNum)` (the contents of the source
`[base, baseIndex, strandIndex, strandNum]` entry). -/
def stapStartBases (doc : Document) : List (Base × Nat × Nat × Int) :=
  doc.enum.flatMap fun p =>
    p.2.stap.enum.filterMap fun q =>
      if q.2.ps = -1 ∧ q.2.pb = -1 ∧ q.2.ns > -1 ∧ q.2.nb > -1 then
        some (q.2, q.1, p.1, p.2.num)
      else none

/-- The `while prevBase[2] > -1 and prevBase[3] > -1` loop of
`getStaplePaths`.  `si` is the storage index of the current strand, `sn` the
current strand number (the source variable `prevStrandNum`), `bi` the current base
index and `b` the current base.  Each iteration records the current position
with `goingRight = (prevStrandNum % 2 != 0)` (the source initialises
`goingRight = True` and flips it to `False` when the number is even). -/
def stapLoop (doc : Document) : Nat → Nat → Int → Int → Base → WalkOut (List PathRec)
  | 0, _, _, _, b =>
    if b.ns > -1 ∧ b.nb > -1 then .outOfFuel else .done []
  | fuel + 1, si, sn, bi, b =>
    if b.ns > -1 ∧ b.nb > -1 then
      match doc.get? si with
      | none => .fail
      | some st =>
        match strandi doc b.ns with
        | none => .fail
        | some ni =>
          match doc.get? ni with
          | none => .fail
          | some nstrand =>
            match pyGet? nstrand.stap b.nb with
            | none => .fail
            | some b' =>
              (stapLoop doc fuel ni b.ns b.nb b').map
                ((⟨st.row, st.col, bi, !(sn % 2 == 0)⟩ : PathRec) :: ·)
    else .done []

/-- The outer loop of `getStaplePaths`: for each start, look up its color in
the color dictionary (`KeyError` = `fail` when absent) and walk the staple. -/
def collectStapPaths (doc : Document) (fuel : Nat) :
    List (Base × Nat × Nat × Int) → WalkOut (List (Int × List PathRec))
  | [] => .done []
  | sb :: rest =>
    match colorsLookup doc sb.2.2.1 (sb.2.1 : Int) with
    | none => .fail
    | some color =>
      match stapLoop doc fuel sb.2.2.1 sb.2.2.2 (sb.2.1 : Int) sb.1 with
      | .done p => (collectStapPaths doc fuel rest).map ((color, p) :: ·)
      | .fail => .fail
      | .outOfFuel => .outOfFuel

/-- The method `caDNAnoFileHandler.getStaplePaths`, with a fuel bound on each walk. -/
def getStaplePaths (doc : Document) (fuel : Nat) : WalkOut (List (Int × List PathRec)) :=
  collectStapPaths doc fuel (stapStartBases doc)

/-- One step of the staple successor chase used by `get_staples`:
`strands[self.strandi[currentBase[2]]]["stap"][currentBase[3]]`. -/
def stapleSucc (doc : Document) (b : Base) : Option Base :=
  match strandi doc b.ns with
  | none => none
  | some ni =>
    match doc.get? ni with
    | none => none
    | some nstrand => pyGet? nstrand.stap b.nb

/-- The `while not threePrimeFound` loop of `get_staples`: unconditionally
step to the successor, append it, and stop once the appended base has
successor `(-1, -1)`.  Returns the list of bases appended by the loop (the
start base was already appended before the loop). -/
def staplesLoop (doc : Document) : Nat → Base → WalkOut (List Base)
  | 0, _ => .outOfFuel
  | fuel + 1, b =>
    match stapleSucc doc b with
    | none => .fail
    | some b' =>
      if b'.ns = -1 ∧ b'.nb = -1 then .done [b']
      else (staplesLoop doc fuel b').map (b' :: ·)

/-- The record list of one staple in `get_staples`: the start base followed
by everything the successor loop appends.  `sn`/`biStart` are the strand
number and staple-color start index of the five-prime end. -/
def stapleRecords (doc : Document) (fuel : Nat) (sn : Int) (biStart : Int) :
    WalkOut (List Base) :=
  match strandi doc sn with
  | none => .fail
  | some si =>
    match doc.get? si with
    | none => .fail
    | some st =>
      match pyGet? st.stap biStart with
      | none => .fail
      | some b0 => (staplesLoop doc fuel b0).map (b0 :: ·)

/-- The outer loop of `get_staples` over the `stap_colors` five-prime starts. -/
def collectStaples (doc : Document) (fuel : Nat) :
    List (Int × Int × Int) → WalkOut (List ((Int × Int) × Int × List Base))
  | [] => .done []
  | st :: rest =>
    match stapleRecords doc fuel st.1 st.2.1 with
    | .done recs => (collectStaples doc fuel rest).map ((⟨st.1, st.2.1⟩, st.2.2, recs) :: ·)
    | .fail => .fail
    | .outOfFuel => .outOfFuel

/-- The method `caDNAnoFileHandler.get_staples`: one entry
`((startStrandNum, startBase), color, records)` per `stap_colors` entry
across all strands (the source renders the color with `hex`; the numeric
value is kept here).  Fuel-bounded. -/
def get_staples (doc : Document) (fuel : Nat) :
    WalkOut (List ((Int × Int) × Int × List Base)) :=
  collectStaples doc fuel
    (doc.flatMap fun s => s.stap_colors.map fun start => (s.num, start.1, start.2))

/-! ## C2: the goingRight flag -/

/-- The property C2 asserts of a record: it was drawn from a strand of the
document, and its flag is the parity of the number of that strand. -/
def recFromStrand (doc : Document) (r : PathRec) (evenIsTrue : Bool) : Prop :=
  ∃ s, (∃ ni, doc.get? ni = some s) ∧ r.row = s.row ∧ r.col = s.col ∧
    (r.goingRight = true ↔ (s.num % 2 = 0 ↔ evenIsTrue = true))

theorem scafLoop_parity (doc : Document) :
    ∀ fuel si bi b recs, scafLoop doc fuel si bi b = .done recs →
    ∀ r ∈ recs, recFromStrand doc r true := by
  intro fuel
  induction fuel with
  | zero =>
    intro si bi b recs h r hr
    rw [scafLoop] at h
    split at h
    · exact WalkOut.noConfusion h
    · injection h with h'; subst h'; cases hr
  | succ n ih =>
    intro si bi b recs h r hr
    rw [scafLoop] at h
    split at h
    · split at h
      · exact WalkOut.noConfusion h
      next ni h1 =>
        split at h
        · exact WalkOut.noConfusion h
        next nstrand h2 =>
          split at h
          · exact WalkOut.noConfusion h
          next b' h3 =>
            split at h
            · exact WalkOut.noConfusion h
            next r0 h4 =>
              obtain ⟨recs', hrec, hcons⟩ := WalkOut.map_eq_done _ _ _ h
              subst hcons
              rcases List.mem_cons.mp hr with rfl | hr'
              · unfold scafRecordOf at h4
                rcases h5 : doc.get? ni with _ | s <;> rw [h5] at h4
                · exact Option.noConfusion h4
                · simp only [Option.map_some'] at h4
                  obtain rfl := Option.some.inj h4
                  exact ⟨s, ⟨ni, h5⟩, rfl, rfl, by simp⟩
              · exact ih ni b.nb b' recs' hrec r hr'
    · injection h with h'; subst h'; cases hr

theorem scafPathFrom_parity (doc : Document) (fuel : Nat) (si bi : Nat) (b : Base)
    (p : List PathRec) (h : scafPathFrom doc fuel si bi b = .done p) :
    ∀ r ∈ p, recFromStrand doc r true := by
  intro r hr
  unfold scafPathFrom at h
  split at h
  · exact WalkOut.noConfusion h
  next r0 h4 =>
    obtain ⟨recs', hrec, hcons⟩ := WalkOut.map_eq_done _ _ _ h
    subst hcons
    rcases List.mem_cons.mp hr with rfl | hr'
    · unfold scafRecordOf at h4
      rcases h5 : doc.get? si with _ | s <;> rw [h5] at h4
      · exact Option.noConfusion h4
      · simp only [Option.map_some'] at h4
        obtain rfl := Option.some.inj h4
        exact ⟨s, ⟨si, h5⟩, rfl, rfl, by simp⟩
    · exact scafLoop_parity doc fuel si (bi : Int) b recs' hrec r hr'

theorem collectScafPaths_parity (doc : Document) (fuel : Nat) :
    ∀ starts paths, collectScafPaths doc fuel starts = .done paths →
    ∀ p ∈ paths, ∀ r ∈ p, recFromStrand doc r true := by
  intro starts
  induction starts with
  | nil =>
    intro paths h p hp
    rw [collectScafPaths] at h
    injection h with h'; subst h'; cases hp
  | cons sb rest ih =>
    intro paths h p hp
    rw [collectScafPaths] at h
    split at h
    next p0 hw =>
      obtain ⟨paths', hrest, hcons⟩ := WalkOut.map_eq_done _ _ _ h
      subst hcons
      rcases List.mem_cons.mp hp with rfl | hp'
      · exact scafPathFrom_parity doc fuel sb.1 sb.2.1 sb.2.2 p hw
      · exact ih paths' hrest p hp'
    next => exact WalkOut.noConfusion h
    next => exact WalkOut.noConfusion h

theorem stapLoop_parity (doc : Document) :
    ∀ fuel si sn bi b recs, (∃ st0, doc.get? si = some st0 ∧ st0.num = sn) →
    stapLoop doc fuel si sn bi b = .done recs →
    ∀ r ∈ recs, recFromStrand doc r false := by
  intro fuel
  induction fuel with
  | zero =>
    intro si sn bi b recs _ h r hr
    rw [stapLoop] at h
    split at h
    · exact WalkOut.noConfusion h
    · injection h with h'; subst h'; cases hr
  | succ n ih =>
    intro si sn bi b recs hinv h r hr
    obtain ⟨st0, hst0, hnum⟩ := hinv
    rw [stapLoop] at h
    split at h
    · split at h
      · exact WalkOut.noConfusion h
      next st hst =>
        split at h
        · exact WalkOut.noConfusion h
        next ni h1 =>
          split at h
          · exact WalkOut.noConfusion h
          next nstrand h2 =>
            split at h
            · exact WalkOut.noConfusion h
            next b' h3 =>
              obtain ⟨recs', hrec, hcons⟩ := WalkOut.map_eq_done _ _ _ h
              subst hcons
              rcases List.mem_cons.mp hr with rfl | hr'
              · have hste : st = st0 := by
                  rw [hst0] at hst
                  exact (Option.some.inj hst).symm
                subst hste
                refine ⟨st, ⟨si, hst0⟩, rfl, rfl, ?_⟩
                subst hnum
                simp
              · obtain ⟨s', hs', hn'⟩ := strandi_spec doc b.ns ni h1
                exact ih ni b.ns b.nb b' recs' ⟨s', hs', hn'⟩ hrec r hr'
    · injection h with h'; subst h'; cases hr

theorem collectStapPaths_parity (doc : Document) (fuel : Nat) :
    ∀ starts out, (∀ sb ∈ starts, ∃ st0, doc.get? sb.2.2.1 = some st0 ∧ st0.num = sb.2.2.2) →
    collectStapPaths doc fuel starts = .done out →
    ∀ cp ∈ out, ∀ r ∈ cp.2, recFromStrand doc r false := by
  intro starts
  induction starts with
  | nil =>
    intro out _ h cp hcp
    rw [collectStapPaths] at h
    injection h with h'; subst h'; cases hcp
  | cons sb rest ih =>
    intro out hinv h cp hcp
    rw [collectStapPaths] at h
    split at h
    · exact WalkOut.noConfusion h
    next color hc =>
      split at h
      next p0 hw =>
        obtain ⟨out', hrest, hcons⟩ := WalkOut.map_eq_done _ _ _ h
        subst hcons
        rcases List.mem_cons.mp hcp with rfl | hcp'
        · exact stapLoop_parity doc fuel sb.2.2.1 sb.2.2.2 (sb.2.1 : Int) sb.1 p0
            (hinv sb (List.mem_cons_self sb rest)) hw
        · exact ih out' (fun x hx => hinv x (List.mem_cons_of_mem sb hx)) hrest cp hcp'
      next => exact WalkOut.noConfusion h
      next => exact WalkOut.noConfusion h

theorem stapStartBases_inv (doc : Document) :
    ∀ sb ∈ stapStartBases doc, ∃ st0, doc.get? sb.2.2.1 = some st0 ∧ st0.num = sb.2.2.2 := by
  intro sb hsb
  unfold stapStartBases at hsb
  obtain ⟨p, hp, hmem⟩ := List.mem_flatMap.mp hsb
  obtain ⟨q, _, hq⟩ := List.mem_filterMap.mp hmem
  have hpget : doc.get? p.1 = some p.2 := by
    have := List.mem_enum_iff_getElem?.mp hp
    simpa [List.get?_eq_getElem?] using this
  split at hq
  · injection hq with hq'
    refine ⟨p.2, ?_, ?_⟩
    · rw [← hq']; exact hpget
    · rw [← hq']
  · exact Option.noConfusion hq

/-- A one-strand document (strand number 0, even) with a two-base staple:
five-prime start at staple base 0, three-prime terminus at staple base 1, color 12345. -/
def stapStrand : VStrand :=
  { num := 0, row := 0, col := 0,
    scaf := [emptyBase, emptyBase],
    stap := [⟨-1, -1, 0, 1⟩, ⟨0, 0, -1, -1⟩],
    skip := [0, 0], loop := [0, 0], stap_colors := [(0, 12345)] }

def stapDoc : Document := [stapStrand]

/-- C2, counterexample: the claim says `goingRight` is true iff the strand
number is even, for the records of both traversals.  On `stapDoc` the staple
record sits on strand number 0 (even) yet `getStaplePaths` emits
`goingRight = false`: the source flips `goingRight` to `False` exactly when
`prevStrandNum % 2 == 0`. -/
theorem getStaplePaths_even_strand_not_goingRight :
    getStaplePaths stapDoc 9 =
      .done [(12345, [⟨0, 0, 0, false⟩])] ∧
    (stapDoc.get? 0).map VStrand.num = some 0 := by
  constructor <;> decide

/-- A one-strand document (strand number 1, odd) with a two-base scaffold
path, for instantiating the parity theorem on the scaffold side. -/
def scafDocW : Document :=
  [{ num := 1, row := 0, col := 0,
     scaf := [⟨-1, -1, 1, 1⟩, ⟨1, 0, -1, -1⟩],
     stap := [emptyBase, emptyBase],
     skip := [0, 0], loop := [0, 0], stap_colors := [] }]

/-- C2 (amended): every record emitted by `getScaffoldPaths` carries
`goingRight = true` iff the number of its strand is even, while every
record emitted by `getStaplePaths` carries `goingRight = true` iff the
number of its strand is odd (the source inverts the convention for staples). -/
theorem goingRight_parity :
    (∀ (doc : Document) (fuel : Nat) (paths : List (List PathRec)),
      getScaffoldPaths doc fuel = .done paths →
      ∀ p ∈ paths, ∀ r ∈ p, recFromStrand doc r true) ∧
    (∀ (doc : Document) (fuel : Nat) (out : List (Int × List PathRec)),
      getStaplePaths doc fuel = .done out →
      ∀ cp ∈ out, ∀ r ∈ cp.2, recFromStrand doc r false) := by
  constructor
  · intro doc fuel paths h
    exact collectScafPaths_parity doc fuel _ paths h
  · intro doc fuel out h
    exact collectStapPaths_parity doc fuel _ out (stapStartBases_inv doc) h

theorem goingRight_parity_witness :
    recFromStrand scafDocW ⟨0, 0, 1, false⟩ true ∧
    recFromStrand stapDoc ⟨0, 0, 0, false⟩ false := by
  constructor
  · exact goingRight_parity.1 scafDocW 9
      [[⟨0, 0, 0, false⟩, ⟨0, 0, 1, false⟩]] (by decide)
      [⟨0, 0, 0, false⟩, ⟨0, 0, 1, false⟩] (by simp)
      ⟨0, 0, 1, false⟩ (by simp)
  · exact goingRight_parity.2 stapDoc 9
      [(12345, [⟨0, 0, 0, false⟩])] (by decide)
      (12345, [⟨0, 0, 0, false⟩]) (by simp)
      ⟨0, 0, 0, false⟩ (by simp)

/-! ## C4: what the two staple walks collect -/

/-- A document whose only staple is a single base: its `stap_colors` entry
points at a base whose staple record is the empty sentinel. -/
def singleStapleDoc : Document :=
  [{ num := 0, row := 0, col := 0,
     scaf := [emptyBase], stap := [emptyBase],
     skip := [0], loop := [0], stap_colors := [(0, 7)] }]

/-- C4, counterexample: on the two-base staple of `stapDoc`, `get_staples`
collects both bases (terminus included) but `getStaplePaths` emits a single
record — its `while prevBase[2] > -1 and prevBase[3] > -1` loop exits before
recording the three-prime terminus base.  And on a staple consisting of a single
base, `get_staples` raises (`strandi[-1]` is a `KeyError`) instead of
collecting it. -/
theorem getStaplePaths_drops_terminus :
    getStaplePaths stapDoc 9 = .done [(12345, [⟨0, 0, 0, false⟩])] ∧
    get_staples stapDoc 9 =
      .done [((0, 0), 12345, [⟨-1, -1, 0, 1⟩, ⟨0, 0, -1, -1⟩])] ∧
    get_staples singleStapleDoc 9 = .fail := by
  refine ⟨?_, ?_, ?_⟩ <;> decide

theorem stapLoop_done_of_not_next (doc : Document) (fuel : Nat) (si : Nat)
    (sn bi : Int) (b : Base) (h : ¬(b.ns > -1 ∧ b.nb > -1)) :
    stapLoop doc fuel si sn bi b = .done [] := by
  cases fuel <;> simp [stapLoop, h]

theorem staplesLoop_terminus (doc : Document) :
    ∀ fuel b0 l, staplesLoop doc fuel b0 = .done l →
    ∃ front last, l = front ++ [last] ∧ last.ns = -1 ∧ last.nb = -1 ∧
      ∀ b ∈ front, ¬(b.ns = -1 ∧ b.nb = -1) := by
  intro fuel
  induction fuel with
  | zero => intro b0 l h; exact WalkOut.noConfusion h
  | succ n ih =>
    intro b0 l h
    rw [staplesLoop] at h
    split at h
    · exact WalkOut.noConfusion h
    next b' hsucc =>
      split at h
      next hterm =>
        injection h with h'
        exact ⟨[], b', h'.symm, hterm.1, hterm.2, by simp⟩
      next hterm =>
        obtain ⟨l', hrec, hcons⟩ := WalkOut.map_eq_done _ _ _ h
        subst hcons
        obtain ⟨front, last, hl, h1, h2, h3⟩ := ih b' l' hrec
        refine ⟨b' :: front, last, by simp [hl], h1, h2, ?_⟩
        intro b hb
        rcases List.mem_cons.mp hb with rfl | hb'
        · exact hterm
        · exact h3 b hb'

theorem staplesLoop_stapLoop_sync (doc : Document) :
    ∀ fuel si sn bi b0 l,
    (∃ st, doc.get? si = some st) →
    (∀ b ∈ l, (b.ns > -1 ∧ b.nb > -1) ∨ (b.ns = -1 ∧ b.nb = -1)) →
    (b0.ns > -1 ∧ b0.nb > -1) →
    staplesLoop doc fuel b0 = .done l →
    ∃ p, stapLoop doc fuel si sn bi b0 = .done p ∧ p.length = l.length := by
  intro fuel
  induction fuel with
  | zero => intro si sn bi b0 l _ _ _ h; exact WalkOut.noConfusion h
  | succ n ih =>
    intro si sn bi b0 l hsi hclean hb0 h
    obtain ⟨st, hst⟩ := hsi
    rw [staplesLoop] at h
    split at h
    · exact WalkOut.noConfusion h
    next b' hsucc =>
      have hdest : ∃ ni nstrand, strandi doc b0.ns = some ni ∧
          doc.get? ni = some nstrand ∧ pyGet? nstrand.stap b0.nb = some b' := by
        unfold stapleSucc at hsucc
        split at hsucc
        · exact Option.noConfusion hsucc
        next ni h1 =>
          split at hsucc
          · exact Option.noConfusion hsucc
          next nstrand h2 => exact ⟨ni, nstrand, h1, h2, hsucc⟩
      obtain ⟨ni, nstrand, h1, h2, h3⟩ := hdest
      split at h
      next hterm =>
        injection h with h'
        subst h'
        refine ⟨[⟨st.row, st.col, bi, !(sn % 2 == 0)⟩], ?_, by simp⟩
        rw [stapLoop, if_pos hb0]
        simp only [hst, h1, h2, h3]
        rw [stapLoop_done_of_not_next doc n ni b0.ns b0.nb b'
          (by rw [hterm.1]; simp)]
        rfl
      next hterm =>
        obtain ⟨l', hrec, hcons⟩ := WalkOut.map_eq_done _ _ _ h
        subst hcons
        have hb' : b'.ns > -1 ∧ b'.nb > -1 := by
          rcases hclean b' (by simp) with hc | hc
          · exact hc
          · exact absurd hc hterm
        obtain ⟨p', hp', hlen⟩ := ih ni b0.ns b0.nb b' l' ⟨nstrand, h2⟩
          (fun b hb => hclean b (by simp [hb])) hb' hrec
        refine ⟨⟨st.row, st.col, bi, !(sn % 2 == 0)⟩ :: p', ?_, by simp [hlen]⟩
        rw [stapLoop, if_pos hb0]
        simp only [hst, h1, h2, h3]
        rw [hp']
        rfl

/-- C4 (amended): from every staple 5' start, `get_staples` follows the
successor pointers collecting one raw record per visited base, ending with
(and including) the unique 3' terminus record; `getStaplePaths` visits the
same chain but collects one display record per visited base *except* the 3'
terminus, which its loop guard excludes (so it emits exactly one record
fewer than `get_staples` collects); and a staple consisting of a single base
makes `get_staples` raise rather than collect. -/
theorem staple_walk_records :
    (∀ (doc : Document) (fuel : Nat) (b0 : Base) (l : List Base),
      staplesLoop doc fuel b0 = .done l →
      ∃ front last, l = front ++ [last] ∧ last.ns = -1 ∧ last.nb = -1 ∧
        ∀ b ∈ front, ¬(b.ns = -1 ∧ b.nb = -1)) ∧
    (∀ (doc : Document) (fuel : Nat) (si : Nat) (sn bi : Int) (b0 : Base)
      (l : List Base),
      (∃ st, doc.get? si = some st) →
      (∀ b ∈ l, (b.ns > -1 ∧ b.nb > -1) ∨ (b.ns = -1 ∧ b.nb = -1)) →
      (b0.ns > -1 ∧ b0.nb > -1) →
      staplesLoop doc fuel b0 = .done l →
      ∃ p, stapLoop doc fuel si sn bi b0 = .done p ∧ p.length = l.length) :=
  ⟨fun doc fuel => staplesLoop_terminus doc fuel,
   fun doc fuel => staplesLoop_stapLoop_sync doc fuel⟩

theorem staple_walk_records_witness :
    (∃ front last, [(⟨0, 0, -1, -1⟩ : Base)] = front ++ [last] ∧
      last.ns = -1 ∧ last.nb = -1 ∧ ∀ b ∈ front, ¬(b.ns = -1 ∧ b.nb = -1)) ∧
    (∃ p, stapLoop stapDoc 9 0 0 0 ⟨-1, -1, 0, 1⟩ = .done p ∧
      p.length = [(⟨0, 0, -1, -1⟩ : Base)].length) := by
  constructor
  · exact staple_walk_records.1 stapDoc 9 ⟨-1, -1, 0, 1⟩ [⟨0, 0, -1, -1⟩] (by decide)
  · exact staple_walk_records.2 stapDoc 9 0 0 0 ⟨-1, -1, 0, 1⟩ [⟨0, 0, -1, -1⟩]
      ⟨stapStrand, by decide⟩ (by decide) (by decide) (by decide)

/-! ## C3: getScaffoldLengths -/

/-- The loop state of `getScaffoldLengths`: `prevBaseWasOccupied`, `start`,
`end` (here `endv`, both initialised to `-1`) and the segment list built so
far. -/
structure SegState where
  prevOcc : Bool
  start : Int
  endv : Int
  acc : List (Int × Int)
deriving DecidableEq, Repr

/-- One iteration of the `for i in range(len(scaf))` loop of
`getScaffoldLengths` at index `i` on base `b`. -/
def segStep (st : SegState) (i : Int) (b : Base) : SegState :=
  let st1 :=
    if b = emptyBase then
      if st.prevOcc then { st with endv := i - 1, prevOcc := false }
      else { st with prevOcc := false }
    else
      if ¬ st.prevOcc then { st with start := i, prevOcc := true }
      else { st with prevOcc := true }
  if st1.endv > -1 ∧ st1.start > -1 then
    { prevOcc := st1.prevOcc, start := -1, endv := -1,
      acc := st1.acc ++ [(st1.start, st1.endv)] }
  else st1

def segLoop : Int → SegState → List Base → SegState
  | _, st, [] => st
  | i, st, b :: rest => segLoop (i + 1) (segStep st i b) rest

/-- The `[startbase, endbase]` pairs `getScaffoldLengths` records for one
scaffold array. -/
def scaffoldSegs (scaf : List Base) : List (Int × Int) :=
  (segLoop 0 ⟨false, -1, -1, []⟩ scaf).acc

/-- The method `caDNAnoFileHandler.getScaffoldLengths`: per strand, `row`, `col` and
the recorded segment list. -/
def getScaffoldLengths (doc : Document) : List (Int × Int × List (Int × Int)) :=
  doc.map fun s => (s.row, s.col, scaffoldSegs s.scaf)

/-- Modelled from the spec: the `(startIndex, endIndex)` pairs of *every*
maximal run of occupied bases (empty-base sentinel = the all-`-1` 4-tuple),
left to right.  `none`/`some s` is the between-runs / inside-a-run-since-`s`
state, `i` the index of the head of the remaining list. -/
def specRuns : Option Int → Int → List Base → List (Int × Int)
  | none, _, [] => []
  | some s, i, [] => [(s, i - 1)]
  | none, i, b :: rest =>
    if b = emptyBase then specRuns none (i + 1) rest
    else specRuns (some i) (i + 1) rest
  | some s, i, b :: rest =>
    if b = emptyBase then (s, i - 1) :: specRuns none (i + 1) rest
    else specRuns (some s) (i + 1) rest

/-- Modelled from the spec: all maximal occupied runs of a scaffold array. -/
def specSegs (scaf : List Base) : List (Int × Int) :=
  specRuns none 0 scaf

theorem segLoop_spec (N : Int) (l : List Base) :
    ∀ (i : Int) (acc : List (Int × Int)), 0 ≤ i → i + l.length = N →
      ((segLoop i ⟨false, -1, -1, acc⟩ l).acc =
        acc ++ (specRuns none i l).filter (fun p => decide (p.2 + 1 < N))) ∧
      (∀ s : Int, 0 ≤ s → s + 1 ≤ i →
        (segLoop i ⟨true, s, -1, acc⟩ l).acc =
          acc ++ (specRuns (some s) i l).filter (fun p => decide (p.2 + 1 < N))) := by
  induction l with
  | nil =>
    intro i acc hi hN
    simp only [List.length_nil, Nat.cast_zero, add_zero] at hN
    subst hN
    constructor
    · simp [segLoop, specRuns]
    · intro s hs hsi
      have hdrop : ¬ ((s, i - 1).2 + 1 < i) := by simp
      simp [segLoop, specRuns, hdrop]
  | cons b rest ih =>
    intro i acc hi hN
    have hN' : (i + 1) + (rest.length : Int) = N := by
      simp only [List.length_cons] at hN
      push_cast at hN ⊢
      omega
    constructor
    · by_cases hb : b = emptyBase
      · have hstep : segStep ⟨false, -1, -1, acc⟩ i b = ⟨false, -1, -1, acc⟩ := by
          simp [segStep, hb]
        rw [segLoop, hstep, (ih (i + 1) acc (by omega) hN').1]
        rw [specRuns, if_pos hb]
      · have hstep : segStep ⟨false, -1, -1, acc⟩ i b = ⟨true, i, -1, acc⟩ := by
          simp [segStep, hb]
        rw [segLoop, hstep,
          (ih (i + 1) acc (by omega) hN').2 i hi (by omega)]
        rw [specRuns, if_neg hb]
    · intro s hs hsi
      by_cases hb : b = emptyBase
      · have hstep : segStep ⟨true, s, -1, acc⟩ i b =
            ⟨false, -1, -1, acc ++ [(s, i - 1)]⟩ := by
          have h1 : (i : Int) - 1 > -1 := by omega
          have h2 : (s : Int) > -1 := by omega
          simp [segStep, hb, h1, h2]
        rw [segLoop, hstep, (ih (i + 1) (acc ++ [(s, i - 1)]) (by omega) hN').1]
        rw [specRuns, if_pos hb]
        have hkeep : i < N := by omega
        simp [List.filter, hkeep]
      · have hstep : segStep ⟨true, s, -1, acc⟩ i b = ⟨true, s, -1, acc⟩ := by
          simp [segStep, hb]
        rw [segLoop, hstep,
          (ih (i + 1) acc (by omega) hN').2 s hs (by omega)]
        rw [specRuns, if_neg hb]

/-- For one scaffold array, the source records exactly the maximal occupied
runs whose right end is strictly before the last array position. -/
theorem scaffoldSegs_spec (scaf : List Base) :
    scaffoldSegs scaf =
      (specSegs scaf).filter (fun p => decide (p.2 + 1 < (scaf.length : Int))) := by
  have h := (segLoop_spec (scaf.length : Int) scaf 0 [] le_rfl (by ring)).1
  simpa [scaffoldSegs, specSegs] using h

def occupiedPairScaf : List Base := [⟨-1, -1, 0, 1⟩, ⟨0, 0, -1, -1⟩]

/-- C3, counterexample: the claim says `getScaffoldLengths` records *every*
maximal run of occupied bases, "including a run that extends to the last
array position".  On a scaffold whose two bases are both occupied (one
maximal run `[0, 1]` reaching the last position) the source records nothing:
`end` is only ever set when an empty base follows a run. -/
theorem getScaffoldLengths_misses_trailing_run :
    scaffoldSegs occupiedPairScaf = [] ∧
    (∀ b ∈ occupiedPairScaf, b ≠ emptyBase) ∧
    occupiedPairScaf.length = 2 ∧
    specSegs occupiedPairScaf = [(0, 1)] := by
  refine ⟨?_, ?_, ?_, ?_⟩ <;> decide

/-- C3 (amended): for every strand, `getScaffoldLengths` returns `row`,
`col`, and the `(startIndex, endIndex)` pairs of exactly those maximal runs
of occupied bases that are followed by an empty base, in left-to-right
order; a maximal run extending to the last array position is omitted, and a
strand with no occupied bases yields an empty segment list. -/
theorem getScaffoldLengths_maximal_runs (doc : Document) :
    getScaffoldLengths doc =
      doc.map (fun s => (s.row, s.col,
        (specSegs s.scaf).filter (fun p => decide (p.2 + 1 < (s.scaf.length : Int))))) := by
  unfold getScaffoldLengths
  exact List.map_congr_left fun s _ => by rw [scaffoldSegs_spec]

/-! ## C5: read_caDNAno_file -/

/-- A strand object as decoded from JSON, before any field is known to be
present: each required per-strand field may be absent. -/
structure RawStrand where
  num : Option Int
  row : Option Int
  col : Option Int
  scaf : Option (List Base)
  stap : Option (List Base)
  skip : Option (List Int)
  loop : Option (List Int)
  stap_colors : Option (List (Int × Int))
deriving DecidableEq, Repr

/-- A decoded top-level JSON object: the `vstrands` key may be absent. -/
structure RawDoc where
  vstrands : Option (List RawStrand)
deriving DecidableEq, Repr

/-- How `read_caDNAno_file` can end once the JSON itself has decoded:
`ok` (returns `True`), `returnFalse` (the `except: return False` branch —
the only failure path the method signals), or `exn` (an uncaught exception
escaping the method, e.g. a `KeyError` in the loops after the `try`). -/
inductive LoadOutcome where
  | ok
  | returnFalse
  | exn
deriving DecidableEq, Repr

/-- The method `caDNAnoFileHandler.read_caDNAno_file` after JSON decoding: the `try`
block evaluates `len(self.data["vstrands"][0]["skip"])` and any failure
there (`vstrands` absent, empty strand list, or strand 0 without `skip`)
returns `False`; then the sequence-buffer, index and color loops read
`strand["num"]` and `strand["stap_colors"]` of every strand, raising an
uncaught `KeyError` when one is absent.  No other field is read and no
length check of any kind is performed. -/
def read_caDNAno_file (d : RawDoc) : LoadOutcome :=
  match d.vstrands with
  | none => .returnFalse
  | some strands =>
    match strands with
    | [] => .returnFalse
    | s0 :: rest =>
      match s0.skip with
      | none => .returnFalse
      | some _ =>
        if (s0 :: rest).all (fun s => s.num.isSome) then
          if (s0 :: rest).all (fun s => s.stap_colors.isSome) then .ok
          else .exn
        else .exn

/-- Two fully-populated strands whose per-strand arrays have *different*
lengths (strand 0: 2 bases, strand 1: 3 bases). -/
def rawMismatched : RawDoc :=
  { vstrands := some
      [{ num := some 0, row := some 0, col := some 0,
         scaf := some [emptyBase, emptyBase], stap := some [emptyBase, emptyBase],
         skip := some [0, 0], loop := some [0, 0], stap_colors := some [] },
       { num := some 1, row := some 0, col := some 1,
         scaf := some [emptyBase, emptyBase, emptyBase],
         stap := some [emptyBase, emptyBase, emptyBase],
         skip := some [0, 0, 0], loop := some [0, 0, 0], stap_colors := some [] }] }

/-- C5, counterexample: the claim says the load fails with a `ParseError`
whenever strands have inconsistent per-strand array lengths.  On
`rawMismatched` — strand 0 with arrays of length 2, strand 1 with arrays of
length 3 — `read_caDNAno_file` succeeds: it never compares array lengths. -/
theorem read_caDNAno_file_accepts_mismatched_lengths :
    read_caDNAno_file rawMismatched = .ok ∧
    ((rawMismatched.vstrands.map fun l => l.map fun s => s.skip.map List.length) =
      some [some 2, some 3]) := by
  constructor <;> decide

/-- C5 (amended): the load signals its `ParseError` (the `return False`
branch) exactly when the `vstrands` key is absent, the strand list is
empty, or strand 0 lacks the `skip` field; when instead any strand lacks
`num` or `stap_colors` an uncaught `KeyError` escapes (a different failure),
and inconsistent per-strand array lengths are accepted silently. -/
theorem read_caDNAno_file_failure_modes (d : RawDoc) :
    (read_caDNAno_file d = .returnFalse ↔
      (d.vstrands = none ∨ d.vstrands = some [] ∨
        ∃ s0 rest, d.vstrands = some (s0 :: rest) ∧ s0.skip = none)) ∧
    (read_caDNAno_file d = .exn ↔
      ∃ s0 rest, d.vstrands = some (s0 :: rest) ∧ s0.skip.isSome ∧
        ¬ ((s0 :: rest).all (fun s => s.num.isSome && s.stap_colors.isSome) = true)) := by
  rcases d with ⟨_ | (_ | ⟨s0, rest⟩)⟩
  · exact ⟨by simp [read_caDNAno_file], by simp [read_caDNAno_file]⟩
  · exact ⟨by simp [read_caDNAno_file], by simp [read_caDNAno_file]⟩
  rcases hskip : s0.skip with _ | sk
  · constructor
    · constructor
      · intro _
        exact Or.inr (Or.inr ⟨s0, rest, rfl, hskip⟩)
      · intro _
        simp [read_caDNAno_file, hskip]
    · constructor
      · intro h
        simp [read_caDNAno_file, hskip] at h
      · rintro ⟨t0, trest, heq, htsk, _⟩
        have hinj := Option.some.inj heq
        have h0 : t0 = s0 := ((List.cons.inj hinj).1).symm
        subst h0
        rw [hskip] at htsk
        simp at htsk
  · have hread : read_caDNAno_file ⟨some (s0 :: rest)⟩ =
        (if (s0 :: rest).all (fun s => s.num.isSome) then
          (if (s0 :: rest).all (fun s => s.stap_colors.isSome) then LoadOutcome.ok
           else .exn)
         else .exn) := by
      simp [read_caDNAno_file, hskip]
    constructor
    · rw [hread]
      constructor
      · intro h
        split at h
        · split at h
          · exact LoadOutcome.noConfusion h
          · exact LoadOutcome.noConfusion h
        · exact LoadOutcome.noConfusion h
      · rintro (h | h | ⟨t0, trest, heq, htsk⟩)
        · exact Option.noConfusion h
        · exact List.noConfusion (Option.some.inj h)
        · have hinj := Option.some.inj heq
          have h0 : t0 = s0 := ((List.cons.inj hinj).1).symm
          subst h0
          rw [hskip] at htsk
          exact Option.noConfusion htsk
    · rw [hread]
      constructor
      · intro h
        refine ⟨s0, rest, rfl, by simp [hskip], ?_⟩
        intro hall
        rw [List.all_eq_true] at hall
        split at h
        next hc1 =>
          split at h
          · exact LoadOutcome.noConfusion h
          next hc2 =>
            apply hc2
            rw [List.all_eq_true]
            intro x hx
            have hx2 := hall x hx
            simp only [Bool.and_eq_true] at hx2
            exact hx2.2
        next hc1 =>
          apply hc1
          rw [List.all_eq_true]
          intro x hx
          have hx2 := hall x hx
          simp only [Bool.and_eq_true] at hx2
          exact hx2.1
      · rintro ⟨t0, trest, heq, _, hnall⟩
        have hinj := Option.some.inj heq
        have h0 : t0 = s0 := ((List.cons.inj hinj).1).symm
        have h1 : trest = rest := ((List.cons.inj hinj).2).symm
        subst h0
        subst h1
        split
        next hc1 =>
          split
          next hc2 =>
            exfalso
            apply hnall
            rw [List.all_eq_true] at hc1 hc2 ⊢
            intro x hx
            simp only [Bool.and_eq_true]
            exact ⟨hc1 x hx, hc2 x hx⟩
          · rfl
        · rfl

/-! ## C6: scaffold_stitch -/

/-- The body of the `for b in range(len(scaf))` loop of `scaffold_stitch` (the
`b != 0` guard included).  The source checks the two base-offset sums, then
runs two `if`s in sequence on the *current* array; each fires on a `-1` in
one slot of base `b-1` and performs four element assignments, here fused
into one `set` per base. -/
def stitchStep (scaf : List Base) (b : Nat) : List Base :=
  if b = 0 then scaf
  else
    match scaf.get? (b - 1), scaf.get? b with
    | some p, some c =>
      if p.pb + p.nb = (b : Int) - 3 ∧ c.pb + c.nb = (b : Int) then
        let scaf1 :=
          if p.nb = -1 then
            (scaf.set (b - 1) ⟨p.ps, p.pb, p.ps, (b : Int)⟩).set b
              ⟨c.ns, (b : Int) - 1, c.ns, c.nb⟩
          else scaf
        match scaf1.get? (b - 1), scaf1.get? b with
        | some p1, some c1 =>
          if p1.pb = -1 then
            (scaf1.set (b - 1) ⟨p1.ns, (b : Int), p1.ns, p1.nb⟩).set b
              ⟨c1.ps, c1.pb, c1.ps, (b : Int) - 1⟩
          else scaf1
        | _, _ => scaf1
      else scaf
    | _, _ => scaf

/-- The stitch scan of `scaffold_stitch` on the scaffold array of one strand. -/
def scaffold_stitch_scaf (scaf : List Base) : List Base :=
  (List.range scaf.length).foldl stitchStep scaf

/-- The method `caDNAnoFileHandler.scaffold_stitch`: runs the breakpoint scan on the
scaffold of every strand in place. -/
def scaffold_stitch (doc : Document) : Document :=
  doc.map fun s => { s with scaf := scaffold_stitch_scaf s.scaf }

/-- C6, counterexample: the claim says `scaffold_stitch` reconnects
positions `b-1`, `b` *exactly when each is missing one of its two neighbor
pointers*, leaving other positions untouched.  Here base 3 = `[0,1,0,2]` is
missing neither pointer, yet because the offset sums happen to match
(`1 + (-1) = 0 = b-3` at base 2, `1 + 2 = 3 = b` at base 3) the stitch fires
and overwrites the five-prime side of base 3 to `[0,2,...]`. -/
theorem scaffold_stitch_rewires_complete_base :
    scaffold_stitch_scaf [emptyBase, emptyBase, ⟨0, 1, 0, -1⟩, ⟨0, 1, 0, 2⟩] =
      [emptyBase, emptyBase, ⟨0, 1, 0, 3⟩, ⟨0, 2, 0, 2⟩] ∧
    ((⟨0, 1, 0, 2⟩ : Base).ps ≠ -1 ∧ (⟨0, 1, 0, 2⟩ : Base).pb ≠ -1 ∧
     (⟨0, 1, 0, 2⟩ : Base).ns ≠ -1 ∧ (⟨0, 1, 0, 2⟩ : Base).nb ≠ -1) := by
  constructor <;> decide

/-- C6 (amended): at each position `b > 0` the loop body reconnects exactly
when the two offset sums match and base `b-1` has `-1` in at least one of
its two base-offset slots, with no requirement that base `b` be missing a
pointer.  When only the next-offset of base `b-1` is `-1`, base `b-1` is
filled with its own five-prime strand number pointing at `b` and the
five-prime side of base `b` is overwritten to point back at `b-1`;
symmetrically when only its prev-offset is `-1`; when both offsets of
base `b-1` are `-1` both fills fire in sequence, leaving base `b-1` as
`[ps, b, ps, b]` and base `b` as `[ns, b-1, ns, b-1]`.  When the sums do
not both match, or they match but neither slot of base `b-1` is `-1`, the
position is left untouched. -/
theorem stitchStep_characterization (scaf : List Base) (b : Nat) (p c : Base)
    (hb : b ≠ 0) (hp : scaf.get? (b - 1) = some p) (hc : scaf.get? b = some c) :
    (¬(p.pb + p.nb = (b : Int) - 3 ∧ c.pb + c.nb = (b : Int)) →
      stitchStep scaf b = scaf) ∧
    ((p.pb + p.nb = (b : Int) - 3 ∧ c.pb + c.nb = (b : Int)) →
      p.nb = -1 → p.pb ≠ -1 →
      stitchStep scaf b =
        (scaf.set (b - 1) ⟨p.ps, p.pb, p.ps, (b : Int)⟩).set b
          ⟨c.ns, (b : Int) - 1, c.ns, c.nb⟩) ∧
    ((p.pb + p.nb = (b : Int) - 3 ∧ c.pb + c.nb = (b : Int)) →
      p.pb = -1 → p.nb ≠ -1 →
      stitchStep scaf b =
        (scaf.set (b - 1) ⟨p.ns, (b : Int), p.ns, p.nb⟩).set b
          ⟨c.ps, c.pb, c.ps, (b : Int) - 1⟩) ∧
    ((p.pb + p.nb = (b : Int) - 3 ∧ c.pb + c.nb = (b : Int)) →
      p.pb ≠ -1 → p.nb ≠ -1 →
      stitchStep scaf b = scaf) ∧
    ((p.pb + p.nb = (b : Int) - 3 ∧ c.pb + c.nb = (b : Int)) →
      p.pb = -1 → p.nb = -1 →
      stitchStep scaf b =
        (scaf.set (b - 1) ⟨p.ps, (b : Int), p.ps, (b : Int)⟩).set b
          ⟨c.ns, (b : Int) - 1, c.ns, (b : Int) - 1⟩) := by
  obtain ⟨hb1len, -⟩ := List.get?_eq_some.mp hp
  obtain ⟨hblen, -⟩ := List.get?_eq_some.mp hc
  have hne : b ≠ b - 1 := by omega
  refine ⟨?_, ?_, ?_, ?_, ?_⟩
  · intro hcond
    unfold stitchStep
    rw [if_neg hb]
    simp only [hp, hc]
    rw [if_neg hcond]
  · intro hcond hnb hpb
    unfold stitchStep
    rw [if_neg hb]
    simp only [hp, hc]
    rw [if_pos hcond, if_pos hnb]
    have hg1 : ((scaf.set (b - 1) (⟨p.ps, p.pb, p.ps, (b : Int)⟩ : Base)).set b
        (⟨c.ns, (b : Int) - 1, c.ns, c.nb⟩ : Base)).get? (b - 1) =
        some ⟨p.ps, p.pb, p.ps, (b : Int)⟩ := by
      rw [List.get?_set_ne _ _ hne, List.get?_set_eq_of_lt _ hb1len]
    have hg2 : ((scaf.set (b - 1) (⟨p.ps, p.pb, p.ps, (b : Int)⟩ : Base)).set b
        (⟨c.ns, (b : Int) - 1, c.ns, c.nb⟩ : Base)).get? b =
        some ⟨c.ns, (b : Int) - 1, c.ns, c.nb⟩ := by
      rw [List.get?_set_eq_of_lt]
      rw [List.length_set]
      exact hblen
    simp only [hg1, hg2]
    rw [if_neg hpb]
  · intro hcond hpb hnb
    unfold stitchStep
    rw [if_neg hb]
    simp only [hp, hc]
    rw [if_pos hcond, if_neg hnb]
    simp only [hp, hc]
    rw [if_pos hpb]
  · intro hcond hpb hnb
    unfold stitchStep
    rw [if_neg hb]
    simp only [hp, hc]
    rw [if_pos hcond, if_neg hnb]
    simp only [hp, hc]
    rw [if_neg hpb]
  · intro hcond hpb hnb
    unfold stitchStep
    rw [if_neg hb]
    simp only [hp, hc]
    rw [if_pos hcond, if_pos hnb]
    have hg1 : ((scaf.set (b - 1) (⟨p.ps, p.pb, p.ps, (b : Int)⟩ : Base)).set b
        (⟨c.ns, (b : Int) - 1, c.ns, c.nb⟩ : Base)).get? (b - 1) =
        some ⟨p.ps, p.pb, p.ps, (b : Int)⟩ := by
      rw [List.get?_set_ne _ _ hne, List.get?_set_eq_of_lt _ hb1len]
    have hg2 : ((scaf.set (b - 1) (⟨p.ps, p.pb, p.ps, (b : Int)⟩ : Base)).set b
        (⟨c.ns, (b : Int) - 1, c.ns, c.nb⟩ : Base)).get? b =
        some ⟨c.ns, (b : Int) - 1, c.ns, c.nb⟩ := by
      rw [List.get?_set_eq_of_lt]
      rw [List.length_set]
      exact hblen
    simp only [hg1, hg2]
    rw [if_pos hpb]
    show ((((scaf.set (b - 1) (⟨p.ps, p.pb, p.ps, (b : Int)⟩ : Base)).set b
        (⟨c.ns, (b : Int) - 1, c.ns, c.nb⟩ : Base)).set (b - 1)
        (⟨p.ps, (b : Int), p.ps, (b : Int)⟩ : Base)).set b
        (⟨c.ns, (b : Int) - 1, c.ns, (b : Int) - 1⟩ : Base)) =
      (scaf.set (b - 1) ⟨p.ps, (b : Int), p.ps, (b : Int)⟩).set b
        ⟨c.ns, (b : Int) - 1, c.ns, (b : Int) - 1⟩
    rw [List.set_comm (⟨c.ns, (b : Int) - 1, c.ns, c.nb⟩ : Base)
      (⟨p.ps, (b : Int), p.ps, (b : Int)⟩ : Base)
      (scaf.set (b - 1) (⟨p.ps, p.pb, p.ps, (b : Int)⟩ : Base)) hne]
    rw [List.set_set (⟨p.ps, p.pb, p.ps, (b : Int)⟩ : Base)
      (⟨p.ps, (b : Int), p.ps, (b : Int)⟩ : Base) scaf (b - 1)]
    rw [List.set_set (⟨c.ns, (b : Int) - 1, c.ns, c.nb⟩ : Base)
      (⟨c.ns, (b : Int) - 1, c.ns, (b : Int) - 1⟩ : Base)
      (scaf.set (b - 1) (⟨p.ps, (b : Int), p.ps, (b : Int)⟩ : Base)) b]

def stitchWitnessScaf : List Base :=
  [emptyBase, emptyBase, ⟨0, 1, 0, -1⟩, ⟨0, 1, 0, 2⟩]

theorem stitchStep_characterization_witness :
    stitchStep stitchWitnessScaf 3 =
      (stitchWitnessScaf.set 2 ⟨0, 1, 0, 3⟩).set 3 ⟨0, 2, 0, 2⟩ :=
  (stitchStep_characterization stitchWitnessScaf 3 ⟨0, 1, 0, -1⟩ ⟨0, 1, 0, 2⟩
    (by decide) (by decide) (by decide)).2.1 (by decide) (by decide) (by decide)

/-! ## C7: populateSequence -/

/-- The buffer `self.vstrandsSequence`: a dict from strand number to the per-base
character buffer. -/
abbrev SeqMap := List (Int × List Char)

/-- Python dict write `m[k] = v`: replace in place if the key exists,
append otherwise. -/
def dictSet (m : List (Int × α)) (k : Int) (v : α) : List (Int × α) :=
  if m.any (fun kv => kv.1 == k) then
    m.map (fun kv => if kv.1 == k then (k, v) else kv)
  else m ++ [(k, v)]

/-- Python dict read `m[k]` (`none` = `KeyError`). -/
def dictGet? (m : List (Int × α)) (k : Int) : Option α :=
  (m.find? (fun kv => kv.1 == k)).map Prod.snd

/-- The assignment `self.vstrandsSequence[strand][base] = ch`. -/
def seqAssign (m : SeqMap) (strand base : Int) (ch : Char) : Option SeqMap :=
  match dictGet? m strand with
  | none => none
  | some l =>
    match pySet? l base ch with
    | none => none
    | some l2 => some (dictSet m strand l2)

/-- The read `self.data["vstrands"][self.strandi[strand]]["skip"][base]`. -/
def readSkip (doc : Document) (strand base : Int) : Option Int :=
  match strandi doc strand with
  | none => none
  | some si =>
    match doc.get? si with
    | none => none
    | some st => pyGet? st.skip base

/-- The read `strands[self.strandi[strand]]["scaf"][base]`. -/
def readScafBase (doc : Document) (strand base : Int) : Option Base :=
  match strandi doc strand with
  | none => none
  | some si =>
    match doc.get? si with
    | none => none
    | some st => pyGet? st.scaf base

/-- The `while len(scaff) > 0` loop of `populateSequence`: assign the
deletion marker at `skip == -1` bases (consuming nothing) or pop the next
sequence character, break once the successor of the current base is
`(-1, -1)`,
otherwise step to the successor base. -/
def popLoop (doc : Document) :
    Nat → SeqMap → List Char → Int → Int → Base → WalkOut SeqMap
  | 0, _, _, _, _, _ => .outOfFuel
  | fuel + 1, seq, scaff, strand, base, curr =>
    match scaff with
    | [] => .done seq
    | ch :: rest =>
      match readSkip doc strand base with
      | none => .fail
      | some sk =>
        match seqAssign seq strand base (if sk = -1 then 'D' else ch) with
        | none => .fail
        | some seq2 =>
          if curr.ns = -1 ∧ curr.nb = -1 then .done seq2
          else
            match readScafBase doc curr.ns curr.nb with
            | none => .fail
            | some curr2 =>
              popLoop doc fuel seq2 (if sk = -1 then ch :: rest else rest)
                curr.ns curr.nb curr2

/-- The method `caDNAnoFileHandler.populateSequence`, fuel-bounded. -/
def populateSequence (doc : Document) (fuel : Nat) (seq : SeqMap)
    (s0 b0 : Int) (scaffSeq : List Char) : WalkOut SeqMap :=
  match readScafBase doc s0 b0 with
  | none => .fail
  | some curr0 => popLoop doc fuel seq scaffSeq s0 b0 curr0

/-- The chain of `(strand, base, skipValue)` positions that the loop of
`populateSequence` would visit from a start, following the same successor steps and skip
reads as the source loop, up to and including the 3' terminus base. -/
def scafChain (doc : Document) : Nat → Int → Int → Base → WalkOut (List (Int × Int × Int))
  | 0, _, _, _ => .outOfFuel
  | fuel + 1, strand, base, curr =>
    match readSkip doc strand base with
    | none => .fail
    | some sk =>
      if curr.ns = -1 ∧ curr.nb = -1 then .done [(strand, base, sk)]
      else
        match readScafBase doc curr.ns curr.nb with
        | none => .fail
        | some curr2 =>
          (scafChain doc fuel curr.ns curr.nb curr2).map ((strand, base, sk) :: ·)

/-- The visited chain from a 5' start `(s0, b0)`. -/
def scafChainFrom (doc : Document) (fuel : Nat) (s0 b0 : Int) :
    WalkOut (List (Int × Int × Int)) :=
  match readScafBase doc s0 b0 with
  | none => .fail
  | some curr0 => scafChain doc fuel s0 b0 curr0

/-- Modelled from the spec: walking the visited chain in path order, one
character of the sequence is assigned per visited base, except `skip = -1`
bases which get the deletion marker `D` and consume no character; the
assignment list stops at the earlier of chain end (the 3' terminus) and
sequence exhaustion. -/
def specMark : List (Int × Int × Int) → List Char → List ((Int × Int) × Char)
  | [], _ => []
  | _, [] => []
  | (s, b, sk) :: rest, ch :: chs =>
    ((s, b), if sk = -1 then 'D' else ch) ::
      specMark rest (if sk = -1 then ch :: chs else chs)

theorem specMark_nil (chs : List Char) : specMark [] chs = [] := by
  cases chs <;> rfl

/-- Apply a list of per-position character assignments to the sequence
buffers in order (failing where the buffer write would raise). -/
def applyMark : SeqMap → List ((Int × Int) × Char) → WalkOut SeqMap
  | seq, [] => .done seq
  | seq, ((s, b), ch) :: rest =>
    match seqAssign seq s b ch with
    | none => .fail
    | some seq2 => applyMark seq2 rest

theorem popLoop_spec (doc : Document) :
    ∀ fuel strand base curr chain,
      scafChain doc fuel strand base curr = .done chain →
      ∀ seq scaff,
        popLoop doc fuel seq scaff strand base curr =
          applyMark seq (specMark chain scaff) := by
  intro fuel
  induction fuel with
  | zero => intro strand base curr chain h; exact WalkOut.noConfusion h
  | succ n ih =>
    intro strand base curr chain h seq scaff
    rw [scafChain] at h
    split at h
    · exact WalkOut.noConfusion h
    next sk hsk =>
      split at h
      next hterm =>
        injection h with h'
        subst h'
        cases scaff with
        | nil => rfl
        | cons ch rest =>
          rw [popLoop]
          simp only [hsk]
          cases hass : seqAssign seq strand base (if sk = -1 then 'D' else ch) with
          | none =>
            simp only [hass]
            rw [specMark, applyMark]
            simp only [hass]
          | some seq2 =>
            simp only [hass]
            rw [if_pos hterm, specMark, applyMark]
            simp only [hass]
            rw [specMark_nil]
            rfl
      next hterm =>
        split at h
        · exact WalkOut.noConfusion h
        next curr2 hnext =>
          obtain ⟨chain', hrec, hcons⟩ := WalkOut.map_eq_done _ _ _ h
          subst hcons
          cases scaff with
          | nil => rfl
          | cons ch rest =>
            rw [popLoop]
            simp only [hsk]
            cases hass : seqAssign seq strand base (if sk = -1 then 'D' else ch) with
            | none =>
              simp only [hass]
              rw [specMark, applyMark]
              simp only [hass]
            | some seq2 =>
              simp only [hass]
              rw [if_neg hterm]
              simp only [hnext]
              rw [specMark, applyMark]
              simp only [hass]
              exact ih curr.ns curr.nb curr2 chain' hrec seq2
                (if sk = -1 then ch :: rest else rest)

/-- The 3-base example document: one strand, scaffold `0 → 1 → 2` with a
deletion (`skip = -1`) at base 1. -/
def popDoc : Document :=
  [{ num := 0, row := 0, col := 0,
     scaf := [⟨-1, -1, 0, 1⟩, ⟨0, 0, 0, 2⟩, ⟨0, 1, -1, -1⟩],
     stap := [emptyBase, emptyBase, emptyBase],
     skip := [0, -1, 0], loop := [0, 0, 0], stap_colors := [] }]

/-- The `'?'`-initialised sequence buffer for `popDoc`. -/
def popSeq0 : SeqMap := [(0, ['?', '?', '?'])]

/-- C7: `populateSequence` assigns one character per visited base in path
order, `D` (consuming nothing) at `skip = -1` bases, and stops at the
earlier of sequence exhaustion and the `(-1, -1)` successor: on the 3-base
path with a middle deletion and sequence `"AC"` it yields `A`, `D`, `C`; and
in general the loop computes exactly the marking that the spec gives of the
visited chain
applied to the buffers in order. -/
theorem populateSequence_assignment :
    (populateSequence popDoc 9 popSeq0 0 0 ['A', 'C'] =
      .done [(0, ['A', 'D', 'C'])]) ∧
    (∀ (doc : Document) (fuel : Nat) (s0 b0 : Int)
      (chain : List (Int × Int × Int)) (seq : SeqMap) (scaff : List Char),
      scafChainFrom doc fuel s0 b0 = .done chain →
      populateSequence doc fuel seq s0 b0 scaff =
        applyMark seq (specMark chain scaff)) := by
  constructor
  · decide
  · intro doc fuel s0 b0 chain seq scaff h
    unfold scafChainFrom at h
    unfold populateSequence
    split at h
    · exact WalkOut.noConfusion h
    next curr0 hcurr =>
      exact popLoop_spec doc fuel s0 b0 curr0 chain h seq scaff

theorem populateSequence_assignment_witness :
    populateSequence popDoc 9 popSeq0 0 0 ['A', 'C'] =
      applyMark popSeq0 (specMark [(0, 0, 0), (0, 1, -1), (0, 2, 0)] ['A', 'C']) :=
  populateSequence_assignment.2 popDoc 9 0 0 [(0, 0, 0), (0, 1, -1), (0, 2, 0)]
    popSeq0 ['A', 'C'] (by decide)


/-! ## C8 and C9: object_concat -/

/-- The re-indexing `object_concat` applies to one copied base:
`b1 = base[1] + insert_len * i if base[1] != -1 else -1`, same for
`base[3]`; `base[0]` and `base[2]` are copied unchanged. -/
def shiftBase (n : Int) (b : Base) : Base :=
  ⟨b.ps, if b.pb ≠ -1 then b.pb + n else -1,
   b.ns, if b.nb ≠ -1 then b.nb + n else -1⟩

/-- The `for i in range(x)` tiling of the stripped interior. -/
def tile (k : Nat) (core : List Base) : List Base :=
  (List.range k).flatMap fun i => core.map (shiftBase ((core.length : Int) * i))

/-- The pop loops of `object_concat` on a staple array: trailing empty run
(in pop order, i.e. reversed), interior, leading empty run.  `none` models
the `IndexError` when the array holds no occupied base at all. -/
def stripStap (stap : List Base) : Option (List Base × List Base × List Base) :=
  let rev := stap.reverse
  let endbases := rev.takeWhile (· == emptyBase)
  if endbases.length = stap.length then none
  else
    let stap1 := (rev.dropWhile (· == emptyBase)).reverse
    let startbases := stap1.takeWhile (· == emptyBase)
    some (startbases, stap1.drop startbases.length, endbases)

/-- The scaffold-side pop loops, which pop the `loop` array in lockstep
(`none` also models `loops.pop()` on an exhausted list). -/
def stripScaf (scaf : List Base) (loops : List Int) :
    Option ((List Base × List Base × List Base) × (List Int × List Int × List Int)) :=
  let rev := scaf.reverse
  let endbases := rev.takeWhile (· == emptyBase)
  if endbases.length = scaf.length then none
  else if loops.length < endbases.length then none
  else
    let endLoops := loops.reverse.take endbases.length
    let scaf1 := (rev.dropWhile (· == emptyBase)).reverse
    let loops1 := (loops.reverse.drop endbases.length).reverse
    let startbases := scaf1.takeWhile (· == emptyBase)
    if loops1.length < startbases.length then none
    else
      some ((startbases, scaf1.drop startbases.length, endbases),
            (loops1.take startbases.length, loops1.drop startbases.length, endLoops))

/-- The transformation `object_concat` applies to one strand: strip both ends of `scaf` (with `loop` in
lockstep) and of `stap`, tile the interiors `x` times with re-indexed
pointers, reassemble (`startbases ++ insert ++ endbases`, the trailing run
in pop order), and reset `skip` to zeros of the new staple length. -/
def object_concat_strand (k : Nat) (s : VStrand) : Option VStrand :=
  match stripScaf s.scaf s.loop with
  | none => none
  | some ((sB, core, eB), (sL, cL, eL)) =>
    let newLoop := sL ++ (List.range k).flatMap (fun _ => cL) ++ eL
    let newscaf := sB ++ tile k core ++ eB
    match stripStap s.stap with
    | none => none
    | some (sB2, core2, eB2) =>
      let newstap := sB2 ++ tile k core2 ++ eB2
      some { s with
        scaf := newscaf, stap := newstap, loop := newLoop,
        skip := List.replicate newstap.length 0 }

/-- The method `caDNAnoFileHandler.object_concat`, aborting at the first strand whose
strip raises. -/
def object_concat (k : Nat) (doc : Document) : Option Document :=
  doc.mapM (object_concat_strand k)

/-- The occupied interior of an array: strip the trailing, then the leading
run of empty-base sentinels. -/
def occInterior (l : List Base) : List Base :=
  ((l.reverse.dropWhile (· == emptyBase)).reverse).dropWhile (· == emptyBase)

theorem drop_takeWhile_length (p : α → Bool) (l : List α) :
    l.drop (l.takeWhile p).length = l.dropWhile p := by
  nth_rewrite 2 [← @List.takeWhile_append_dropWhile _ p l]
  rw [List.drop_left]

theorem take_takeWhile_length (p : α → Bool) (l : List α) :
    l.take (l.takeWhile p).length = l.takeWhile p := by
  nth_rewrite 2 [← @List.takeWhile_append_dropWhile _ p l]
  rw [List.take_left]

theorem reverse_of_const (c : α) (l : List α) (h : ∀ x ∈ l, x = c) :
    l.reverse = l := by
  have hl : l = List.replicate l.length c := List.eq_replicate_length.mpr h
  rw [hl, List.reverse_replicate]

theorem dropWhile_head_not (p : α → Bool) :
    ∀ (l : List α) (a : α) (l' : List α), l.dropWhile p = a :: l' → p a = false := by
  intro l
  induction l with
  | nil => intro a l' h; simp at h
  | cons x xs ih =>
    intro a l' h
    rw [List.dropWhile_cons] at h
    split at h
    · exact ih a l' h
    next hx =>
      injection h with h1 _
      subst h1
      simpa using hx

theorem dropWhile_append_of_all (p : α → Bool) (l1 l2 : List α)
    (h : ∀ x ∈ l1, p x = true) :
    (l1 ++ l2).dropWhile p = l2.dropWhile p := by
  induction l1 with
  | nil => simp
  | cons a as ih =>
    rw [List.cons_append, List.dropWhile_cons, if_pos (h a (by simp))]
    exact ih fun x hx => h x (by simp [hx])

theorem dropWhile_append_singleton (p : α → Bool) (l0 : List α) (y : α)
    (hy : p y = false) :
    (l0 ++ [y]).dropWhile p = l0.dropWhile p ++ [y] := by
  induction l0 with
  | nil => simp [List.dropWhile_cons, hy]
  | cons a as ih =>
    rw [List.cons_append, List.dropWhile_cons, List.dropWhile_cons]
    split
    · exact ih
    · simp

theorem mem_of_mem_dropWhile (p : α → Bool) :
    ∀ (l : List α) (x : α), x ∈ l.dropWhile p → x ∈ l := by
  intro l
  induction l with
  | nil => intro x hx; simp at hx
  | cons a as ih =>
    intro x hx
    rw [List.dropWhile_cons] at hx
    split at hx
    · exact List.mem_cons_of_mem a (ih x hx)
    · exact hx

theorem tile_length (k : Nat) (core : List Base) :
    (tile k core).length = k * core.length := by
  induction k with
  | zero => simp [tile]
  | succ m ih =>
    unfold tile at ih ⊢
    rw [List.range_succ, List.flatMap_append, List.length_append, ih]
    simp [Nat.succ_mul]

theorem shiftBase_zero (b : Base) : shiftBase 0 b = b := by
  cases b with
  | mk ps pb ns nb =>
    unfold shiftBase
    have h1 : (if pb ≠ -1 then pb + 0 else -1) = pb := by split <;> omega
    have h2 : (if nb ≠ -1 then nb + 0 else -1) = nb := by split <;> omega
    simp only at h1 h2 ⊢
    rw [h1, h2]

theorem tile_one (core : List Base) : tile 1 core = core := by
  unfold tile
  rw [show List.range 1 = [0] from rfl]
  simp only [List.flatMap_cons, List.flatMap_nil, List.append_nil, Nat.cast_zero,
    mul_zero]
  have h : core.map (shiftBase 0) = core.map id :=
    List.map_congr_left fun b _ => shiftBase_zero b
  rw [h, List.map_id]


theorem stripScaf_spec (scaf : List Base) (loops : List Int)
    (sB core eB : List Base) (sL cL eL : List Int)
    (h : stripScaf scaf loops = some ((sB, core, eB), (sL, cL, eL))) :
    eB = scaf.reverse.takeWhile (· == emptyBase) ∧
    sB = ((scaf.reverse.dropWhile (· == emptyBase)).reverse).takeWhile (· == emptyBase) ∧
    core = occInterior scaf ∧
    eL = loops.reverse.take eB.length ∧
    sL = ((loops.reverse.drop eB.length).reverse).take sB.length ∧
    cL = ((loops.reverse.drop eB.length).reverse).drop sB.length ∧
    eB.length ≤ loops.length := by
  dsimp only [stripScaf] at h
  split at h
  · exact Option.noConfusion h
  next hlen =>
    split at h
    · exact Option.noConfusion h
    next hguard =>
      split at h
      · exact Option.noConfusion h
      next hguard2 =>
        have hinj := Option.some.inj h
        simp only [Prod.mk.injEq] at hinj
        obtain ⟨⟨he1, he2, he3⟩, he4, he5, he6⟩ := hinj
        refine ⟨he3.symm, he1.symm, ?_, ?_, ?_, ?_, ?_⟩
        · rw [← he2, drop_takeWhile_length]
          rfl
        · rw [← he6, ← he3]
        · rw [← he4, ← he3, ← he1]
        · rw [← he5, ← he3, ← he1]
        · rw [← he3]
          omega

theorem stripStap_spec (stap : List Base) (sB core eB : List Base)
    (h : stripStap stap = some (sB, core, eB)) :
    eB = stap.reverse.takeWhile (· == emptyBase) ∧
    sB = ((stap.reverse.dropWhile (· == emptyBase)).reverse).takeWhile (· == emptyBase) ∧
    core = occInterior stap := by
  dsimp only [stripStap] at h
  split at h
  · exact Option.noConfusion h
  next hlen =>
    have hinj := Option.some.inj h
    simp only [Prod.mk.injEq] at hinj
    obtain ⟨he1, he2, he3⟩ := hinj
    refine ⟨he3.symm, he1.symm, ?_⟩
    rw [← he2, drop_takeWhile_length]
    rfl

/-- Reassembly: any base array splits as leading empty run, occupied
interior, trailing empty run. -/
theorem base_decomp (l : List Base) :
    l = ((l.reverse.dropWhile (· == emptyBase)).reverse).takeWhile (· == emptyBase) ++
        occInterior l ++ l.reverse.takeWhile (· == emptyBase) := by
  have hrev : l.reverse.takeWhile (· == emptyBase) ++
      l.reverse.dropWhile (· == emptyBase) = l.reverse :=
    List.takeWhile_append_dropWhile _ _
  have hconst : (l.reverse.takeWhile (· == emptyBase)).reverse =
      l.reverse.takeWhile (· == emptyBase) := by
    refine reverse_of_const emptyBase _ fun x hx => ?_
    have := List.mem_takeWhile_imp hx
    simpa using this
  have hl : l = (l.reverse.dropWhile (· == emptyBase)).reverse ++
      l.reverse.takeWhile (· == emptyBase) := by
    conv_lhs => rw [← List.reverse_reverse l, ← hrev]
    rw [List.reverse_append, hconst]
  have hmid : (l.reverse.dropWhile (· == emptyBase)).reverse =
      ((l.reverse.dropWhile (· == emptyBase)).reverse).takeWhile (· == emptyBase) ++
        occInterior l := by
    exact (List.takeWhile_append_dropWhile _ _).symm
  conv_lhs => rw [hl, hmid]

theorem mapM_option_get (f : α → Option β) :
    ∀ (l : List α) (l' : List β), l.mapM f = some l' →
      l.length = l'.length ∧
      ∀ (i : Nat) (a : α), l.get? i = some a →
        ∃ b, f a = some b ∧ l'.get? i = some b := by
  intro l
  induction l with
  | nil =>
    intro l' h
    simp only [List.mapM_nil, pure, Option.some.injEq] at h
    subst h
    exact ⟨rfl, fun i a ha => by simp at ha⟩
  | cons x xs ih =>
    intro l' h
    rw [List.mapM_cons] at h
    cases hfx : f x with
    | none => rw [hfx] at h; simp [Option.bind] at h
    | some y =>
      rw [hfx] at h
      cases hxs : xs.mapM f with
      | none =>
        rw [hxs] at h
        simp [Option.bind, pure] at h
      | some ys =>
        rw [hxs] at h
        simp at h
        subst h
        obtain ⟨hlen, hget⟩ := ih ys hxs
        refine ⟨by simp [hlen], ?_⟩
        intro i a ha
        cases i with
        | zero =>
          simp only [List.get?] at ha ⊢
          obtain rfl := Option.some.inj ha
          exact ⟨y, hfx, rfl⟩
        | succ j =>
          simp only [List.get?] at ha ⊢
          exact hget j a ha

/-- A strand whose trailing empty scaffold run carries distinct loop
values `1, 2`. -/
def concatStrandEx : VStrand :=
  { num := 0, row := 0, col := 0,
    scaf := [⟨-1, -1, 0, 1⟩, emptyBase, emptyBase],
    stap := [⟨5, 5, 5, 5⟩],
    skip := [0, 0, 0], loop := [0, 1, 2], stap_colors := [] }

/-- What `object_concat 1` actually produces on `concatStrandEx`. -/
def concatStrandEx' : VStrand :=
  { num := 0, row := 0, col := 0,
    scaf := [⟨-1, -1, 0, 1⟩, emptyBase, emptyBase],
    stap := [⟨5, 5, 5, 5⟩],
    skip := [0], loop := [0, 2, 1], stap_colors := [] }

/-- C8, counterexample: the claim says `object_concat(1)` leaves the
`loop` array of every strand equal to its original value.  The trailing empty run
is collected by `pop()`s and re-appended in pop order, so the loop values
over the trailing empty scaffold run come back reversed: `[0, 1, 2]`
becomes `[0, 2, 1]`. -/
theorem object_concat_one_reverses_trailing_loops :
    object_concat 1 [concatStrandEx] = some [concatStrandEx'] ∧
    concatStrandEx.loop = [0, 1, 2] ∧ concatStrandEx'.loop = [0, 2, 1] := by
  refine ⟨?_, ?_, ?_⟩ <;> decide

theorem object_concat_strand_one (s s' : VStrand)
    (h : object_concat_strand 1 s = some s') :
    s'.scaf = s.scaf ∧ s'.stap = s.stap ∧
    s'.skip = List.replicate s.stap.length 0 ∧
    ∃ front back, s.loop = front ++ back ∧ s'.loop = front ++ back.reverse ∧
      back.length = (s.scaf.reverse.takeWhile (· == emptyBase)).length := by
  unfold object_concat_strand at h
  split at h
  · exact Option.noConfusion h
  next sB core eB sL cL eL hstrip =>
    split at h
    · exact Option.noConfusion h
    next sB2 core2 eB2 hstrip2 =>
      obtain rfl := Option.some.inj h
      obtain ⟨heB, hsB, hcore, heL, hsL, hcL, hlenle⟩ :=
        stripScaf_spec s.scaf s.loop sB core eB sL cL eL hstrip
      obtain ⟨heB2, hsB2, hcore2⟩ := stripStap_spec s.stap sB2 core2 eB2 hstrip2
      have hscaf : sB ++ tile 1 core ++ eB = s.scaf := by
        rw [tile_one, hsB, hcore, heB]
        exact (base_decomp s.scaf).symm
      have hstap : sB2 ++ tile 1 core2 ++ eB2 = s.stap := by
        rw [tile_one, hsB2, hcore2, heB2]
        exact (base_decomp s.stap).symm
      refine ⟨hscaf, hstap, ?_, ?_⟩
      · show List.replicate (sB2 ++ tile 1 core2 ++ eB2).length 0 =
          List.replicate s.stap.length 0
        rw [hstap]
      · refine ⟨(s.loop.reverse.drop eB.length).reverse,
          (s.loop.reverse.take eB.length).reverse, ?_, ?_, ?_⟩
        · conv_lhs => rw [← List.reverse_reverse s.loop,
            ← List.take_append_drop eB.length s.loop.reverse]
          rw [List.reverse_append]
        · show sL ++ (List.range 1).flatMap (fun _ => cL) ++ eL = _
          rw [show (List.range 1).flatMap (fun _ => cL) = cL from by
            rw [show List.range 1 = [0] from rfl]; simp]
          rw [hsL, hcL, heL, List.reverse_reverse]
          rw [List.take_append_drop]
        · rw [List.length_reverse, List.length_take, List.length_reverse, ← heB]
          omega

/-- C8 (amended): `object_concat(doc, 1)` leaves, for every strand, the `scaf` and
`stap` arrays equal to their original values and resets `skip` to zeros of
the staple-array length; the `loop` array keeps its leading part but gets
the entries over the trailing empty scaffold run back in reversed order. -/
theorem object_concat_one_noop_up_to_trailing_loops (doc doc' : Document)
    (h : object_concat 1 doc = some doc') :
    doc.length = doc'.length ∧
    ∀ (i : Nat) (s s' : VStrand), doc.get? i = some s → doc'.get? i = some s' →
      s'.scaf = s.scaf ∧ s'.stap = s.stap ∧
      s'.skip = List.replicate s.stap.length 0 ∧
      ∃ front back, s.loop = front ++ back ∧ s'.loop = front ++ back.reverse ∧
        back.length = (s.scaf.reverse.takeWhile (· == emptyBase)).length := by
  obtain ⟨hlen, hget⟩ := mapM_option_get (object_concat_strand 1) doc doc' h
  refine ⟨hlen, ?_⟩
  intro i s s' hs hs'
  obtain ⟨b, hb, hb'⟩ := hget i s hs
  have : b = s' := by
    rw [hb'] at hs'
    exact Option.some.inj hs'
  subst this
  exact object_concat_strand_one s b hb

theorem object_concat_one_noop_witness :
    ∃ front back, concatStrandEx.loop = front ++ back ∧
      concatStrandEx'.loop = front ++ back.reverse ∧
      back.length =
        (concatStrandEx.scaf.reverse.takeWhile (· == emptyBase)).length := by
  have h := object_concat_one_noop_up_to_trailing_loops [concatStrandEx]
    [concatStrandEx'] (by decide)
  obtain ⟨-, hget⟩ := h
  obtain ⟨-, -, -, hfb⟩ := hget 0 concatStrandEx concatStrandEx' (by decide) (by decide)
  exact hfb


/-- Cross-reference offsets of a base are `-1` or valid indices below `n`. -/
def offsetsValid (b : Base) (n : Nat) : Prop :=
  (b.pb = -1 ∨ (0 ≤ b.pb ∧ b.pb < (n : Int))) ∧
  (b.nb = -1 ∨ (0 ≤ b.nb ∧ b.nb < (n : Int)))

theorem stripScaf_ne (scaf : List Base) (loops : List Int)
    (out : (List Base × List Base × List Base) × (List Int × List Int × List Int))
    (h : stripScaf scaf loops = some out) :
    scaf.reverse.dropWhile (· == emptyBase) ≠ [] := by
  dsimp only [stripScaf] at h
  split at h
  · exact Option.noConfusion h
  next hlen =>
    intro hnil
    apply hlen
    have hlens := congrArg List.length
      (List.takeWhile_append_dropWhile (· == emptyBase) scaf.reverse)
    rw [List.length_append, hnil] at hlens
    simpa using hlens

theorem stripStap_ne (stap : List Base)
    (out : List Base × List Base × List Base)
    (h : stripStap stap = some out) :
    stap.reverse.dropWhile (· == emptyBase) ≠ [] := by
  dsimp only [stripStap] at h
  split at h
  · exact Option.noConfusion h
  next hlen =>
    intro hnil
    apply hlen
    have hlens := congrArg List.length
      (List.takeWhile_append_dropWhile (· == emptyBase) stap.reverse)
    rw [List.length_append, hnil] at hlens
    simpa using hlens

theorem occInterior_head_last (l : List Base)
    (hne : l.reverse.dropWhile (· == emptyBase) ≠ []) :
    (∃ z zs, occInterior l = z :: zs ∧ (z == emptyBase) = false) ∧
    (∃ ws w, occInterior l = ws ++ [w] ∧ (w == emptyBase) = false) := by
  obtain ⟨y, ys, hys⟩ := List.exists_cons_of_ne_nil hne
  have hy : (y == emptyBase) = false :=
    dropWhile_head_not (· == emptyBase) l.reverse y ys hys
  have hocc : occInterior l = (ys.reverse.dropWhile (· == emptyBase)) ++ [y] := by
    unfold occInterior
    rw [hys, List.reverse_cons, dropWhile_append_singleton (· == emptyBase) ys.reverse y hy]
  constructor
  · have hne2 : occInterior l ≠ [] := by rw [hocc]; simp
    obtain ⟨z, zs, hz⟩ := List.exists_cons_of_ne_nil hne2
    have hz' : ((l.reverse.dropWhile (· == emptyBase)).reverse).dropWhile
        (· == emptyBase) = z :: zs := hz
    exact ⟨z, zs, hz, dropWhile_head_not (· == emptyBase)
      ((l.reverse.dropWhile (· == emptyBase)).reverse) z zs hz'⟩
  · exact ⟨ys.reverse.dropWhile (· == emptyBase), y, hocc, hy⟩

theorem shiftBase_ne_empty (n : Int) (hn : 0 ≤ n) (b : Base)
    (hb : (b == emptyBase) = false)
    (hpb : b.pb = -1 ∨ 0 ≤ b.pb) (hnb : b.nb = -1 ∨ 0 ≤ b.nb) :
    (shiftBase n b == emptyBase) = false := by
  rw [beq_eq_false_iff_ne] at hb ⊢
  intro hcontra
  apply hb
  cases b with
  | mk ps pb ns nb =>
    have h1 := congrArg Base.ps hcontra
    have h2 := congrArg Base.pb hcontra
    have h3 := congrArg Base.ns hcontra
    have h4 := congrArg Base.nb hcontra
    simp only [shiftBase, emptyBase] at h1 h2 h3 h4
    simp only at hpb hnb
    have hpb2 : pb = -1 := by
      rcases hpb with hcase | hcase
      · exact hcase
      · have hne : pb ≠ -1 := by omega
        rw [if_pos hne] at h2
        omega
    have hnb2 : nb = -1 := by
      rcases hnb with hcase | hcase
      · exact hcase
      · have hne : nb ≠ -1 := by omega
        rw [if_pos hne] at h4
        omega
    show Base.mk ps pb ns nb = emptyBase
    rw [emptyBase, h1, h3, hpb2, hnb2]

theorem mem_tile (k : Nat) (core : List Base) (b' : Base) (h : b' ∈ tile k core) :
    ∃ i, i < k ∧ ∃ b ∈ core, b' = shiftBase ((core.length : Int) * i) b := by
  unfold tile at h
  obtain ⟨i, hi, hmem⟩ := List.mem_flatMap.mp h
  obtain ⟨b, hb, hbeq⟩ := List.mem_map.mp hmem
  exact ⟨i, List.mem_range.mp hi, b, hb, hbeq.symm⟩

theorem mem_of_mem_occInterior (l : List Base) (x : Base)
    (h : x ∈ occInterior l) : x ∈ l := by
  unfold occInterior at h
  have h1 := mem_of_mem_dropWhile (· == emptyBase)
    ((l.reverse.dropWhile (· == emptyBase)).reverse) x h
  rw [List.mem_reverse] at h1
  have h2 := mem_of_mem_dropWhile (· == emptyBase) l.reverse x h1
  rw [List.mem_reverse] at h2
  exact h2

theorem tile_map_zero (core : List Base) :
    core.map (shiftBase ((core.length : Int) * ((0 : Nat) : Int))) = core := by
  rw [show ((core.length : Int) * ((0 : Nat) : Int)) = 0 by simp]
  have h : core.map (shiftBase 0) = core.map id :=
    List.map_congr_left fun b _ => shiftBase_zero b
  rw [h, List.map_id]

theorem tile_succ_front (m : Nat) (core : List Base) :
    ∃ rest, tile (m + 1) core = core ++ rest := by
  have h : tile (m + 1) core = core ++
      ((List.range m).map Nat.succ).flatMap
        (fun i => core.map (shiftBase ((core.length : Int) * i))) := by
    unfold tile
    rw [List.range_succ_eq_map, List.flatMap_cons, tile_map_zero]
  exact ⟨_, h⟩

theorem tile_succ_back (m : Nat) (core : List Base) :
    tile (m + 1) core = tile m core ++
      core.map (shiftBase ((core.length : Int) * m)) := by
  unfold tile
  rw [List.range_succ, List.flatMap_append, List.flatMap_cons, List.flatMap_nil,
    List.append_nil]

theorem occInterior_sandwich (sB X eB : List Base)
    (hsB : ∀ x ∈ sB, (x == emptyBase) = true)
    (heB : ∀ x ∈ eB, (x == emptyBase) = true)
    (hhead : ∃ z zs, X = z :: zs ∧ (z == emptyBase) = false)
    (hlast : ∃ ws w, X = ws ++ [w] ∧ (w == emptyBase) = false) :
    occInterior (sB ++ X ++ eB) = X := by
  obtain ⟨z, zs, hz, hzq⟩ := hhead
  obtain ⟨ws, w, hw, hwq⟩ := hlast
  unfold occInterior
  have h1 : (sB ++ X ++ eB).reverse = eB.reverse ++ (X.reverse ++ sB.reverse) := by
    simp [List.reverse_append, List.append_assoc]
  rw [h1, dropWhile_append_of_all _ _ _ (fun x hx => heB x (List.mem_reverse.mp hx))]
  have h2 : X.reverse = w :: ws.reverse := by rw [hw]; simp
  rw [h2, List.cons_append, List.dropWhile_cons, if_neg (by simp [hwq])]
  rw [List.reverse_cons, List.reverse_append, List.reverse_reverse,
    List.reverse_reverse, List.append_assoc, ← hw,
    dropWhile_append_of_all _ _ _ hsB, hz, List.dropWhile_cons,
    if_neg (by simp [hzq])]


theorem mem_takeWhile_sat (p : α → Bool) :
    ∀ (l : List α) (x : α), x ∈ l.takeWhile p → p x = true := by
  intro l
  induction l with
  | nil => intro x hx; simp at hx
  | cons a as ih =>
    intro x hx
    rw [List.takeWhile_cons] at hx
    split at hx
    · rcases List.mem_cons.mp hx with rfl | hmem
      · assumption
      · exact ih x hmem
    · simp at hx

theorem shift_offset_bound (v c i m sBl eBl : Int)
    (hv : v = -1 ∨ (0 ≤ v ∧ v < sBl + c + eBl))
    (hi : 0 ≤ i) (him : i ≤ m) (hc : 0 ≤ c) :
    (if v ≠ -1 then v + c * i else -1) = -1 ∨
    (0 ≤ (if v ≠ -1 then v + c * i else -1) ∧
      (if v ≠ -1 then v + c * i else -1) < sBl + (m + 1) * c + eBl) := by
  by_cases hne1 : v = -1
  · left
    rw [if_neg (not_not_intro hne1)]
  · rcases hv with hcase | hcase
    · exact absurd hcase hne1
    · right
      rw [if_pos hne1]
      have hle : c * i ≤ c * m := mul_le_mul_of_nonneg_left him hc
      have hnn : 0 ≤ c * i := mul_nonneg hc hi
      constructor
      · linarith
      · nlinarith

theorem tiled_interior_props (m : Nat) (arr : List Base)
    (sB core eB : List Base)
    (hsB : sB =
      ((arr.reverse.dropWhile (· == emptyBase)).reverse).takeWhile (· == emptyBase))
    (hcore : core = occInterior arr)
    (heB : eB = arr.reverse.takeWhile (· == emptyBase))
    (hne : arr.reverse.dropWhile (· == emptyBase) ≠ [])
    (hvalid : ∀ b ∈ arr, offsetsValid b arr.length) :
    occInterior (sB ++ tile (m + 1) core ++ eB) = tile (m + 1) core ∧
    (tile (m + 1) core).length = (m + 1) * core.length ∧
    (∀ b' ∈ tile (m + 1) core,
      offsetsValid b' (sB ++ tile (m + 1) core ++ eB).length) := by
  have hsB_all : ∀ x ∈ sB, (x == emptyBase) = true := by
    intro x hx
    rw [hsB] at hx
    exact mem_takeWhile_sat (· == emptyBase) _ x hx
  have heB_all : ∀ x ∈ eB, (x == emptyBase) = true := by
    intro x hx
    rw [heB] at hx
    exact mem_takeWhile_sat (· == emptyBase) _ x hx
  obtain ⟨⟨z, zs, hz, hzq⟩, ⟨ws, w, hw, hwq⟩⟩ := occInterior_head_last arr hne
  rw [← hcore] at hz hw
  obtain ⟨rest, hfront⟩ := tile_succ_front m core
  have hhead : ∃ z' zs', tile (m + 1) core = z' :: zs' ∧
      (z' == emptyBase) = false := by
    refine ⟨z, zs ++ rest, ?_, hzq⟩
    rw [hfront, hz, List.cons_append]
  have hwmem : w ∈ arr := by
    apply mem_of_mem_occInterior
    rw [← hcore, hw]
    simp
  have hwvalid := hvalid w hwmem
  have hlast : ∃ ws' w', tile (m + 1) core = ws' ++ [w'] ∧
      (w' == emptyBase) = false := by
    refine ⟨tile m core ++ ws.map (shiftBase ((core.length : Int) * m)),
      shiftBase ((core.length : Int) * m) w, ?_, ?_⟩
    · rw [tile_succ_back, hw, List.map_append]
      simp [List.append_assoc]
    · apply shiftBase_ne_empty _ (by positivity) _ hwq
      · rcases hwvalid.1 with hcase | hcase
        · exact Or.inl hcase
        · exact Or.inr hcase.1
      · rcases hwvalid.2 with hcase | hcase
        · exact Or.inl hcase
        · exact Or.inr hcase.1
  refine ⟨occInterior_sandwich sB _ eB hsB_all heB_all hhead hlast,
    tile_length _ _, ?_⟩
  have harrlen : arr.length = sB.length + core.length + eB.length := by
    conv_lhs => rw [show arr = sB ++ core ++ eB from by
      rw [hsB, hcore, heB]; exact base_decomp arr]
    rw [List.length_append, List.length_append]
  have hnewlen : (sB ++ tile (m + 1) core ++ eB).length =
      sB.length + (m + 1) * core.length + eB.length := by
    simp [tile_length]
    ring
  intro b' hb'
  obtain ⟨i, hik, b, hbcore, hbeq⟩ := mem_tile (m + 1) core b' hb'
  subst hbeq
  have hbmem : b ∈ arr := mem_of_mem_occInterior arr b (hcore ▸ hbcore)
  obtain ⟨hpb, hnb⟩ := hvalid b hbmem
  rw [harrlen] at hpb hnb
  have hpb' : b.pb = -1 ∨
      (0 ≤ b.pb ∧ b.pb < (sB.length : Int) + core.length + eB.length) := by
    rcases hpb with hcase | hcase
    · exact Or.inl hcase
    · refine Or.inr ⟨hcase.1, ?_⟩
      have := hcase.2
      push_cast at this ⊢
      linarith
  have hnb' : b.nb = -1 ∨
      (0 ≤ b.nb ∧ b.nb < (sB.length : Int) + core.length + eB.length) := by
    rcases hnb with hcase | hcase
    · exact Or.inl hcase
    · refine Or.inr ⟨hcase.1, ?_⟩
      have := hcase.2
      push_cast at this ⊢
      linarith
  have him : (i : Int) ≤ (m : Int) := by
    have := Nat.lt_succ_iff.mp hik
    exact_mod_cast this
  have hb1 := shift_offset_bound b.pb (core.length : Int) i m
    (sB.length : Int) (eB.length : Int) hpb' (by positivity) him (by positivity)
  have hb2 := shift_offset_bound b.nb (core.length : Int) i m
    (sB.length : Int) (eB.length : Int) hnb' (by positivity) him (by positivity)
  constructor
  · rw [hnewlen]
    dsimp only [shiftBase]
    push_cast
    convert hb1 using 3
  · rw [hnewlen]
    dsimp only [shiftBase]
    push_cast
    convert hb2 using 3


/-- C9: for `k ≥ 1`, `object_concat` multiplies, per strand, the occupied
interior length exactly by `k`, and every non-sentinel `(prevBase, nextBase)`
offset inside the tiled interior (re-indexed by `interiorLength × copyIndex`)
is a valid index into the new array of that strand, provided the original offsets
were valid indices into the original array. -/
theorem object_concat_tiles (k : Nat) (hk : 1 ≤ k) (doc doc' : Document)
    (h : object_concat k doc = some doc') :
    ∀ (i : Nat) (s s' : VStrand), doc.get? i = some s → doc'.get? i = some s' →
      (∀ b ∈ s.scaf, offsetsValid b s.scaf.length) →
      (∀ b ∈ s.stap, offsetsValid b s.stap.length) →
      (occInterior s'.scaf).length = k * (occInterior s.scaf).length ∧
      (occInterior s'.stap).length = k * (occInterior s.stap).length ∧
      (∀ b ∈ occInterior s'.scaf, offsetsValid b s'.scaf.length) ∧
      (∀ b ∈ occInterior s'.stap, offsetsValid b s'.stap.length) := by
  obtain ⟨-, hget⟩ := mapM_option_get (object_concat_strand k) doc doc' h
  intro i s s' hs hs' hscafv hstapv
  obtain ⟨b, hb, hb'⟩ := hget i s hs
  have hbs' : b = s' := by
    rw [hb'] at hs'
    exact Option.some.inj hs'
  subst hbs'
  obtain ⟨m, rfl⟩ : ∃ m, k = m + 1 := ⟨k - 1, by omega⟩
  unfold object_concat_strand at hb
  split at hb
  · exact Option.noConfusion hb
  next sB core eB sL cL eL hstrip =>
    split at hb
    · exact Option.noConfusion hb
    next sB2 core2 eB2 hstrip2 =>
      obtain rfl := Option.some.inj hb
      obtain ⟨heB, hsB, hcore, -, -, -, -⟩ :=
        stripScaf_spec s.scaf s.loop sB core eB sL cL eL hstrip
      obtain ⟨heB2, hsB2, hcore2⟩ := stripStap_spec s.stap sB2 core2 eB2 hstrip2
      obtain ⟨hocc1, hlen1, hbound1⟩ := tiled_interior_props m s.scaf sB core eB
        hsB hcore heB (stripScaf_ne s.scaf s.loop _ hstrip) hscafv
      obtain ⟨hocc2, hlen2, hbound2⟩ := tiled_interior_props m s.stap sB2 core2 eB2
        hsB2 hcore2 heB2 (stripStap_ne s.stap _ hstrip2) hstapv
      refine ⟨?_, ?_, ?_, ?_⟩
      · show (occInterior (sB ++ tile (m + 1) core ++ eB)).length = _
        rw [hocc1, hlen1, hcore]
      · show (occInterior (sB2 ++ tile (m + 1) core2 ++ eB2)).length = _
        rw [hocc2, hlen2, hcore2]
      · show ∀ b ∈ occInterior (sB ++ tile (m + 1) core ++ eB), _
        rw [hocc1]
        exact hbound1
      · show ∀ b ∈ occInterior (sB2 ++ tile (m + 1) core2 ++ eB2), _
        rw [hocc2]
        exact hbound2

/-- A strand with one occupied scaffold base and one occupied staple base,
for instantiating the tiling theorem at `k = 2`. -/
def tileStrandW : VStrand :=
  { num := 0, row := 0, col := 0,
    scaf := [emptyBase, ⟨-1, -1, -1, 1⟩, emptyBase],
    stap := [emptyBase, ⟨-1, 0, -1, -1⟩, emptyBase],
    skip := [0, 0, 0], loop := [0, 0, 0], stap_colors := [] }

/-- What `object_concat 2` produces on `tileStrandW`. -/
def tileStrandW' : VStrand :=
  { num := 0, row := 0, col := 0,
    scaf := [emptyBase, ⟨-1, -1, -1, 1⟩, ⟨-1, -1, -1, 2⟩, emptyBase],
    stap := [emptyBase, ⟨-1, 0, -1, -1⟩, ⟨-1, 1, -1, -1⟩, emptyBase],
    skip := [0, 0, 0, 0], loop := [0, 0, 0, 0], stap_colors := [] }

theorem object_concat_tiles_witness :
    (occInterior tileStrandW'.scaf).length =
      2 * (occInterior tileStrandW.scaf).length ∧
    (occInterior tileStrandW'.stap).length =
      2 * (occInterior tileStrandW.stap).length ∧
    (∀ b ∈ occInterior tileStrandW'.scaf,
      offsetsValid b tileStrandW'.scaf.length) ∧
    (∀ b ∈ occInterior tileStrandW'.stap,
      offsetsValid b tileStrandW'.stap.length) := by
  refine object_concat_tiles 2 (by omega) [tileStrandW] [tileStrandW']
    (by decide) 0 tileStrandW tileStrandW' (by decide) (by decide) ?_ ?_
  · intro b hb
    fin_cases hb <;> constructor <;> simp [offsetsValid, tileStrandW, emptyBase]
  · intro b hb
    fin_cases hb <;> constructor <;> simp [offsetsValid, tileStrandW, emptyBase]


/-! ## C10: DnaGeometry.giveHoneycombCoord -/

/-- The constant `self.HC_inter_helix_dist = 2.6` (modelled exactly as the rational
`26/10`). -/
def HC_inter_helix_dist : ℚ := 26 / 10

/-- The `while i <= row` accumulation of `giveHoneycombCoord`: starting
from `y0`, iteration `i` adds `evenInc` when `i` is even and `oddInc` when
it is odd; `hcAccum y0 evenInc oddInc n` is the value after iterations
`i = 0, …, n-1`. -/
def hcAccum (y0 evenInc oddInc : ℚ) : Nat → ℚ
  | 0 => y0
  | i + 1 => hcAccum y0 evenInc oddInc i + (if i % 2 = 0 then evenInc else oddInc)

/-- The `y` coordinate of `DnaGeometry.giveHoneycombCoord(row, col)`: even
columns start at `0.5·d` and add `d` on even `i` / `2d` on odd `i`; odd
columns start at `0` and add `2d` on even `i` / `d` on odd `i`; the loop
runs for `i = 0, …, row`. -/
def giveHoneycombCoord_y (row col : Nat) : ℚ :=
  if col % 2 = 0 then
    hcAccum (1 / 2 * HC_inter_helix_dist) HC_inter_helix_dist
      (2 * HC_inter_helix_dist) (row + 1)
  else
    hcAccum 0 (2 * HC_inter_helix_dist) HC_inter_helix_dist (row + 1)

theorem hcAccum_succ (y0 e o : ℚ) (n : Nat) :
    hcAccum y0 e o (n + 1) = hcAccum y0 e o n + (if n % 2 = 0 then e else o) := rfl

/-- C10: for every column and every row `≥ 0`, the honeycomb `y` coordinate
is strictly increasing in the row — each loop iteration adds `d` or `2d`,
both positive. -/
theorem giveHoneycombCoord_y_strictMono (row col : Nat) :
    giveHoneycombCoord_y row col < giveHoneycombCoord_y (row + 1) col := by
  have hd : (0 : ℚ) < HC_inter_helix_dist := by norm_num [HC_inter_helix_dist]
  unfold giveHoneycombCoord_y
  split
  · conv_rhs => rw [hcAccum_succ]
    split <;> linarith
  · conv_rhs => rw [hcAccum_succ]
    split <;> linarith


end CaDNAno
